import Mathlib

/-!
# qocache: the LRU cache of `cache/cache.go`

A shallow embedding of the cache engine (`LruCache` with `New`, `Put`, `Get`,
`Stats` and the internal `remove`) and theorems about it.

Modelling conventions.

* Go `int` is the 64 bit signed integer type.  A value of that type is an `Int`
  between `minInt` and `maxInt`, and every sum or difference the code forms on
  sizes is reduced to that range by `wrapInt` (two's complement wrap-around),
  as the Go `+`, `-`, `+=` and `-=` do.  The number `ByteSize()` returns and
  `len(key)` are values of that type.
* `time.Time` and `time.Duration` are integers (`Int`), numbers of
  nanoseconds.
* `time.Now()` is an input: every operation receives the successive clock
  readings it takes (`now 0` is the first reading of the call, `now 1` the
  second, and so on).
* `container/list` is a sequence of elements, front first.  An element has an
  identity (`id`, its address) and a `Value` of Go type `interface{}`, which in
  this program holds either a `cacheEntry` or a `*list.Element`.  The `Value`
  of an element is never reassigned, so a `*list.Element` stored in the map is
  represented by the element record itself.
* A failed type assertion `elem.Value.(cacheEntry)` is a run-time panic; it is
  an explicit outcome of the operations.  A panic unwinds through the deferred
  `Unlock` and keeps what the call had changed until then, so the outcome
  carries the state at the panic, which is what later calls see when a caller
  recovers.
* `len(key)` is the number of bytes of the UTF-8 encoding of the key, which
  for a Go string is at most `maxInt`.
* The mutex only serialises calls; operations are modelled one at a time.
-/

namespace Cache

/-- Clock readings (`time.Time`), in nanoseconds. -/
abbrev Time := Int

/-- Elapsed times (`time.Duration`), in nanoseconds. -/
abbrev Duration := Int

/-- The largest value of the Go type `int`, `math.MaxInt64`. -/
def maxInt : Int := 9223372036854775807

/-- The smallest value of the Go type `int`, `math.MinInt64`. -/
def minInt : Int := -9223372036854775808

/-- The value of type `int` that Go arithmetic yields for the exact result `n`:
the integer between `minInt` and `maxInt` that differs from `n` by a multiple
of `2^64`. -/
def wrapInt (n : Int) : Int :=
  (n + 9223372036854775808) % 18446744073709551616 - 9223372036854775808

/-- The builtin `len` on a string: its number of bytes, a value of type `int`
(a Go string has at most `maxInt` bytes). -/
def len (s : String) : Int := min (s.utf8ByteSize : Int) maxInt

/-- A value implementing the `CacheItem` interface: some payload together with
the number its `ByteSize()` method reports. -/
structure CacheItem where
  payload : Nat
  reported : Int
deriving DecidableEq, Repr

/-- The method `ByteSize() int` of a cache item: the reported number, as a
value of type `int`. -/
def CacheItem.ByteSize (item : CacheItem) : Int := wrapInt item.reported

/-- The constant `mapEntrySize = 16 + 8 + 40`. -/
def mapEntrySize : Int := 16 + 8 + 40

/-- The constant `maxStatHistory = 1000`. -/
def maxStatHistory : Nat := 1000

/-- The constant `minMaxSize = 1000000`. -/
def minMaxSize : Int := 1000000

/-- The struct `cacheEntry`. -/
structure cacheEntry where
  item : CacheItem
  createTime : Time
  key : String
  size : Int
deriving DecidableEq, Repr

/-- What the `Value interface{}` field of a list element holds in this program:
a `cacheEntry` (stored by `Put`) or a `*list.Element` (stored by `Get`, which
calls `PushFront(elem)`); the pointer is represented by the identity of the
element it points to. -/
inductive ElemValue where
  | entry (e : cacheEntry)
  | elemPtr (id : Nat)
deriving DecidableEq, Repr

/-- A `list.Element`: its identity and its value. -/
structure Element where
  id : Nat
  Value : ElemValue
deriving DecidableEq, Repr

/-- The struct `LruCache` (without the lock).  `theMap` is the Go map as an
association list, `theList` is the linked list, front first, and `nextElem` is
the identity the next allocated list element receives. -/
structure LruCache where
  theMap : List (String × Element)
  theList : List Element
  nextElem : Nat
  maxSize : Int
  currentSize : Int
  maxAge : Duration
  timesToEviction : List Duration
  lastStat : Time
deriving DecidableEq, Repr

/-- Map lookup `m[key]` with the comma-ok result. -/
def mapGet (m : List (String × Element)) (key : String) : Option Element :=
  match m with
  | [] => none
  | (k, el) :: rest => if k = key then some el else mapGet rest key

/-- The builtin `delete(m, key)`. -/
def mapDelete (m : List (String × Element)) (key : String) : List (String × Element) :=
  m.filter (fun p => decide (p.1 ≠ key))

/-- Map assignment `m[key] = elem`. -/
def mapSet (m : List (String × Element)) (key : String) (elem : Element) :
    List (String × Element) :=
  (key, elem) :: mapDelete m key

/-- The method `List.Back`: the last element of the list or nil. -/
def Back (l : List Element) : Option Element := l.getLast?

/-- The method `List.Remove`: unlinks the element with the given identity. -/
def listRemove (l : List Element) (elem : Element) : List Element :=
  l.filter (fun x => decide (x.id ≠ elem.id))

/-- The function `newCacheEntry`; `now` is the reading of `time.Now()`.  The
sum is formed in `int` arithmetic; reducing after every `+` gives the same
value as reducing the exact sum once. -/
def newCacheEntry (key : String) (item : CacheItem) (now : Time) : cacheEntry :=
  { item := item
    createTime := now
    key := key
    size := wrapInt (40 + 16 + 8 + 16 + 8 + len key + item.ByteSize + mapEntrySize) }

/-- The method `cacheEntry.hasExpired`; `now` is the reading of `time.Now()`,
taken only when `maxAge > 0`. -/
def hasExpired (ce : cacheEntry) (maxAge : Duration) (now : Time) : Bool :=
  decide (maxAge > 0) && decide (now - ce.createTime > maxAge)

/-- The method `LruCache.remove`.  The result is `none` when the type
assertion `elem.Value.(cacheEntry)` panics, otherwise the new state and the
returned boolean. -/
def remove (c : LruCache) (elem : Option Element) (now : Time) : Option (LruCache × Bool) :=
  match elem with
  | none => some (c, false)
  | some el =>
    match el.Value with
    | .elemPtr _ => none
    | .entry entry =>
      let timeToEviction := now - entry.createTime
      let samples :=
        if c.timesToEviction.length ≤ maxStatHistory then
          c.timesToEviction ++ [timeToEviction]
        else c.timesToEviction
      some ({ c with
                timesToEviction := samples
                theMap := mapDelete c.theMap entry.key
                theList := listRemove c.theList el
                currentSize := wrapInt (c.currentSize - entry.size) }, true)

/-- How a call ends: it returns (with the new state and a value), or it panics
(leaving the state `c`).  `outOfFuel` is the outcome of a loop cut off by its
iteration budget. -/
inductive Result (α : Type) where
  | ret (c : LruCache) (v : α)
  | panic (c : LruCache)
  | outOfFuel
deriving DecidableEq, Repr

/-- The state a call leaves behind. -/
def Result.state {α : Type} : Result α → Option LruCache
  | .ret c _ => some c
  | .panic c => some c
  | .outOfFuel => none

/-- How the eviction loop of `Put` ends: the entry fits (loop condition false),
the back of the list was nil (`Put` returns the error), or `remove` panicked.
The clock index is the number of readings taken so far. -/
inductive EvictResult where
  | fits (c : LruCache) (t : Nat)
  | full (c : LruCache)
  | panic (c : LruCache)
  | outOfFuel
deriving DecidableEq, Repr

/-- The eviction loop of `Put`,
`for c.currentSize+newEntry.size > c.maxSize { ... }`, with an iteration
budget `fuel`; `t` is the index of the next clock reading. -/
def evictLoop (newSize : Int) (now : Nat → Time) : Nat → Nat → LruCache → EvictResult
  | 0, _, _ => .outOfFuel
  | fuel + 1, t, c =>
    if wrapInt (c.currentSize + newSize) > c.maxSize then
      match remove c (Back c.theList) (now t) with
      | none => .panic c
      | some (c1, true) => evictLoop newSize now fuel (t + 1) c1
      | some (c1, false) => .full c1
    else .fits c t

/-- The error value of `Put`: `fmt.Errorf("cannot fit %d bytes in cache", size)`,
represented by the size it mentions. -/
structure PutError where
  size : Int
deriving DecidableEq, Repr

/-- The method `LruCache.Put`.  The returned value is `none` for a nil error. -/
def Put (c : LruCache) (key : String) (item : CacheItem) (now : Nat → Time) :
    Result (Option PutError) :=
  let afterReplace : Option (LruCache × Nat) :=
    match mapGet c.theMap key with
    | some elem =>
      match remove c (some elem) (now 0) with
      | none => none
      | some (c1, _) => some (c1, 1)
    | none => some (c, 0)
  match afterReplace with
  | none => .panic c
  | some (c1, t) =>
    let newEntry := newCacheEntry key item (now t)
    match evictLoop newEntry.size now (c1.theList.length + 1) (t + 1) c1 with
    | .panic c2 => .panic c2
    | .outOfFuel => .outOfFuel
    | .full c2 => .ret c2 (some ⟨newEntry.size⟩)
    | .fits c2 _ =>
      let elem : Element := ⟨c2.nextElem, .entry newEntry⟩
      .ret { c2 with
               theList := elem :: c2.theList
               nextElem := c2.nextElem + 1
               theMap := mapSet c2.theMap key elem
               currentSize := wrapInt (c2.currentSize + newEntry.size) } none

/-- The method `LruCache.Get`.  The returned value is `some item` for
`(item, true)` and `none` for `(nil, false)`. -/
def Get (c : LruCache) (key : String) (now : Nat → Time) : Result (Option CacheItem) :=
  match mapGet c.theMap key with
  | none => .ret c none
  | some elem =>
    match elem.Value with
    | .elemPtr _ => .panic c
    | .entry entry =>
      if hasExpired entry c.maxAge (now 0) then
        match remove c (some elem) (now 1) with
        | none => .panic c
        | some (c1, _) => .ret c1 none
      else
        .ret { c with
                 theList := ⟨c.nextElem, .elemPtr elem.id⟩ :: c.theList
                 nextElem := c.nextElem + 1 } (some entry.item)

/-- The struct `CacheStats`. -/
structure CacheStats where
  TimeToEviction : List Duration
  ByteSize : Int
  ItemCount : Nat
  StatDuration : Duration
deriving DecidableEq, Repr

/-- The method `LruCache.Stats`; `now` is the reading of `time.Now()`. -/
def Stats (c : LruCache) (now : Time) : Result CacheStats :=
  let lastStat := now
  let stat : CacheStats :=
    { TimeToEviction := c.timesToEviction
      ByteSize := c.currentSize
      ItemCount := c.theMap.length
      StatDuration := lastStat - c.lastStat }
  .ret { c with lastStat := lastStat, timesToEviction := [] } stat

/-- The constructor `New`; `now` is the reading of `time.Now()`. -/
def New (maxSize : Int) (maxAge : Duration) (now : Time) : LruCache :=
  let maxSize := if maxSize ≤ minMaxSize then minMaxSize else maxSize
  { theMap := []
    theList := []
    nextElem := 0
    maxSize := maxSize
    maxAge := maxAge
    currentSize := 60
    timesToEviction := []
    lastStat := now }

/-! ## Derived notions used to state the properties -/

/-- The `size` field of the entry an element holds (0 for an element that holds
no entry). -/
def entrySize (el : Element) : Int :=
  match el.Value with
  | .entry e => e.size
  | .elemPtr _ => 0

/-- The sum of the `size` fields of the entries held in the key index. -/
def indexedSize (m : List (String × Element)) : Int :=
  (m.map (fun p => entrySize p.2)).sum

/-- Consistency of a cache state: the index has one element per key, that
element holds the entry of the key and is linked in the list, every entry
linked in the list is the indexed one, element identities are distinct and
older than the next allocation, and the running total is the base overhead
plus the indexed sizes, in `int` arithmetic. -/
structure Inv (c : LruCache) : Prop where
  keysNodup : (c.theMap.map Prod.fst).Nodup
  idsNodup : (c.theList.map Element.id).Nodup
  mapSound : ∀ k el, (k, el) ∈ c.theMap → el ∈ c.theList ∧ ∃ e, el.Value = .entry e ∧ e.key = k
  listSound : ∀ el e, el ∈ c.theList → el.Value = .entry e → (e.key, el) ∈ c.theMap
  fresh : ∀ el, el ∈ c.theList → el.id < c.nextElem
  sizeEq : c.currentSize = wrapInt (60 + indexedSize c.theMap)

/-- The state `remove` produces for an element holding the entry `e`. -/
def removed (c : LruCache) (el : Element) (e : cacheEntry) (t : Time) : LruCache :=
  { c with
      timesToEviction :=
        if c.timesToEviction.length ≤ maxStatHistory then
          c.timesToEviction ++ [t - e.createTime]
        else c.timesToEviction
      theMap := mapDelete c.theMap e.key
      theList := listRemove c.theList el
      currentSize := wrapInt (c.currentSize - e.size) }

/-- The first statement of `Put`: an entry already stored under `key` is
removed.  The result is the state and the number of clock readings taken. -/
def replaceStep (c : LruCache) (key : String) (now : Nat → Time) : Option (LruCache × Nat) :=
  match mapGet c.theMap key with
  | some elem =>
    match remove c (some elem) (now 0) with
    | none => none
    | some (c1, _) => some (c1, 1)
  | none => some (c, 0)

/-- The last three statements of a successful `Put`: the new entry is pushed
to the front of the list, indexed and accounted. -/
def pushed (c : LruCache) (key : String) (newEntry : cacheEntry) : LruCache :=
  { c with
      theList := ⟨c.nextElem, .entry newEntry⟩ :: c.theList
      nextElem := c.nextElem + 1
      theMap := mapSet c.theMap key ⟨c.nextElem, .entry newEntry⟩
      currentSize := wrapInt (c.currentSize + newEntry.size) }

/-- The state after a `Get` hit: `PushFront(elem)` allocates a new element
whose value is the pointer `elem`. -/
def touched (c : LruCache) (elem : Element) : LruCache :=
  { c with
      theList := ⟨c.nextElem, .elemPtr elem.id⟩ :: c.theList
      nextElem := c.nextElem + 1 }

/-- One call on the cache, with the clock readings it takes. -/
inductive Op where
  | put (key : String) (item : CacheItem) (now : Nat → Time)
  | get (key : String) (now : Nat → Time)
  | stats (now : Time)

/-- The state after one call: the state it returns with, or the state it
leaves behind when it panics. -/
def step (c : LruCache) : Op → Option LruCache
  | .put key item now => (Put c key item now).state
  | .get key now => (Get c key now).state
  | .stats now => (Stats c now).state

/-- The state after a sequence of calls, each made in the state the previous
one left behind. -/
def run (c : LruCache) : List Op → Option LruCache
  | [] => some c
  | op :: ops =>
    match step c op with
    | some c1 => run c1 ops
    | none => none

/-- The key and the item a `Put` call hands to the cache satisfy `P`. -/
def Op.putSatisfies (P : String → CacheItem → Prop) : Op → Prop
  | .put key item _ => P key item
  | _ => True

/-- A state reached from a new cache by a finite sequence of calls. -/
def Reachable (c : LruCache) : Prop :=
  ∃ (maxSize : Int) (maxAge : Duration) (now : Time) (ops : List Op),
    run (New maxSize maxAge now) ops = some c

/-- The entry the key index holds for `key`: `c.theMap[key].Value.(cacheEntry)`. -/
def entryOf (c : LruCache) (key : String) : Option cacheEntry :=
  match mapGet c.theMap key with
  | some el =>
    match el.Value with
    | .entry e => some e
    | .elemPtr _ => none
  | none => none

/-- The state after a sequence of calls, as a total function. -/
def stateAfter (c : LruCache) (ops : List Op) : LruCache := (run c ops).getD c

/-- A clock that stands still at `t` during a call. -/
def clockAt (t : Time) : Nat → Time := fun _ => t

/-- A short session: store, read, replace, read statistics. -/
def sizeDemoOps : List Op :=
  [.put "a" ⟨1, 10⟩ (clockAt 1), .get "a" (clockAt 2), .put "a" ⟨2, 20⟩ (clockAt 3), .stats 4]

/-- A session that fills the cache above its limit twice. -/
def capacityDemoOps : List Op :=
  [.put "a" ⟨1, 600000⟩ (clockAt 1), .put "b" ⟨2, 300000⟩ (clockAt 2), .get "a" (clockAt 3),
   .put "c" ⟨3, 200000⟩ (clockAt 4), .stats 5]

/-- Keys A, B, C stored in that order, then a read of A. -/
def lruDemoOps : List Op :=
  [.put "A" ⟨1, 300000⟩ (clockAt 1), .put "B" ⟨2, 300000⟩ (clockAt 2),
   .put "C" ⟨3, 300000⟩ (clockAt 3), .get "A" (clockAt 4)]

/-- A store, a read hit and a second store. -/
def panicDemoOps : List Op :=
  [.put "a" ⟨1, 300000⟩ (clockAt 1), .get "a" (clockAt 2), .put "b" ⟨2, 400000⟩ (clockAt 3)]

/-- A store followed by a read hit. -/
def oversizedDemoOps : List Op :=
  [.put "a" ⟨1, 10⟩ (clockAt 1), .get "a" (clockAt 2)]

/-- A cache with a maximum age of 10 ms holding one entry stored at time 0. -/
def expiryDemoOps : List Op := [.put "k" ⟨1, 100⟩ (clockAt 0)]

/-- A cache without a maximum age holding one entry stored at time 0. -/
def noExpiryDemoOps : List Op := [.put "k" ⟨1, 100⟩ (clockAt 0)]

/-- A store followed by two read hits of the same key. -/
def correspondenceDemoOps : List Op :=
  [.put "a" ⟨1, 10⟩ (clockAt 1), .get "a" (clockAt 2), .get "a" (clockAt 3)]

/-- The `if len(c.timesToEviction) <= maxStatHistory { append }` of `remove`. -/
def record (samples : List Duration) (d : Duration) : List Duration :=
  if samples.length ≤ maxStatHistory then samples ++ [d] else samples

/-- The effect of successive removals on the sample list. -/
def recordAll (samples : List Duration) (ds : List Duration) : List Duration :=
  ds.foldl record samples

/-- The removals of the eviction loop of `Put`, in order: for each entry it
removes, the clock reading at the removal minus the `createTime` of the entry. -/
def evictLog (newSize : Int) (now : Nat → Time) : Nat → Nat → LruCache → List Duration
  | 0, _, _ => []
  | fuel + 1, t, c =>
    if wrapInt (c.currentSize + newSize) > c.maxSize then
      match Back c.theList with
      | none => []
      | some el =>
        match el.Value with
        | .elemPtr _ => []
        | .entry e =>
          (now t - e.createTime) :: evictLog newSize now fuel (t + 1) (removed c el e (now t))
    else []

/-- The removals of a `Put`, in order: the replaced entry, then the evicted
ones. -/
def putLog (c : LruCache) (key : String) (item : CacheItem) (now : Nat → Time) :
    List Duration :=
  match mapGet c.theMap key with
  | none => evictLog (newCacheEntry key item (now 0)).size now (c.theList.length + 1) 1 c
  | some el =>
    match el.Value with
    | .elemPtr _ => []
    | .entry e =>
      (now 0 - e.createTime) ::
        evictLog (newCacheEntry key item (now 1)).size now
          ((removed c el e (now 0)).theList.length + 1) 2 (removed c el e (now 0))

/-- The removals of a `Get`: the looked-up entry when it has expired. -/
def getLog (c : LruCache) (key : String) (now : Nat → Time) : List Duration :=
  match entryOf c key with
  | none => []
  | some e => if hasExpired e c.maxAge (now 0) then [now 1 - e.createTime] else []

/-- The removals of one call. -/
def opLog (c : LruCache) : Op → List Duration
  | .put key item now => putLog c key item now
  | .get key now => getLog c key now
  | .stats _ => []

/-- The removals of a sequence of calls, in order. -/
def runLog (c : LruCache) : List Op → List Duration
  | [] => []
  | op :: ops =>
    opLog c op ++
      (match step c op with
       | some c1 => runLog c1 ops
       | none => [])

/-- Whether a call is a `Stats` call. -/
def Op.isStats : Op → Bool
  | .stats _ => true
  | _ => false

/-- The same key stored 1002 times. -/
def capDemoOps : List Op := List.replicate (1001 + 1) (.put "k" ⟨1, 10⟩ (clockAt 0))

/-- The cache that holds the single key "k" in the list element `n`. -/
def capDemoState (n : Nat) (samples : List Duration) : LruCache :=
  { theMap := [("k", ⟨n, .entry ⟨⟨1, 10⟩, 0, "k", 163⟩⟩)]
    theList := [⟨n, .entry ⟨⟨1, 10⟩, 0, "k", 163⟩⟩]
    nextElem := n + 1
    maxSize := 1000000
    currentSize := 223
    maxAge := 0
    timesToEviction := samples
    lastStat := 0 }

/-- A session with a replacement, an expiry and a capacity eviction. -/
def samplesDemoOps : List Op :=
  [.put "a" ⟨1, 10⟩ (clockAt 0), .put "a" ⟨2, 10⟩ (clockAt 1), .get "a" (clockAt 20),
   .put "b" ⟨3, 600000⟩ (clockAt 30), .put "c" ⟨4, 600000⟩ (clockAt 40)]

/-- The sum of the `size` fields of the entries held by list elements. -/
def sizeSum (l : List Element) : Int := (l.map entrySize).sum

/-- Whether a call is a `Put` call. -/
def Op.isPut : Op → Bool
  | .put _ _ _ => true
  | _ => false

/-- Every element of the list holds an entry, and the element identities
decrease from the front to the back: the list is ordered by the `Put` that
allocated each element, most recent first. -/
def PutOrdered (c : LruCache) : Prop :=
  (∀ el, el ∈ c.theList → ∃ e, el.Value = .entry e) ∧
  (c.theList.map Element.id).Pairwise (fun a b => a > b)

/-- Four keys stored one after the other; the fourth does not fit. -/
def evictionDemoOps : List Op :=
  [.put "a" ⟨1, 300000⟩ (clockAt 1), .put "b" ⟨2, 300000⟩ (clockAt 2),
   .put "c" ⟨3, 300000⟩ (clockAt 3)]

/-- Two items that each report `maxInt - 100` bytes. -/
def wrapDemoOps : List Op :=
  [.put "a" ⟨1, 9223372036854775707⟩ (clockAt 1), .put "b" ⟨2, 9223372036854775707⟩ (clockAt 2)]

/-- An item that reports `maxInt` bytes, four items of 300000 bytes, and a read
of the first item after it has expired. -/
def boundDemoOps : List Op :=
  [.put "big" ⟨1, 9223372036854775807⟩ (clockAt 0), .put "a" ⟨2, 300000⟩ (clockAt 1),
   .put "b" ⟨3, 300000⟩ (clockAt 2), .put "c" ⟨4, 300000⟩ (clockAt 3),
   .put "d" ⟨5, 300000⟩ (clockAt 4), .get "big" (clockAt 100)]

/-- An item that reports `maxInt` bytes, then a small item under the key "k". -/
def replaceWrapDemoOps : List Op :=
  [.put "big" ⟨1, 9223372036854775807⟩ (clockAt 1), .put "k" ⟨2, 0⟩ (clockAt 2)]

/-- An item that reports `maxInt - 1000` bytes, then an item of 1000 bytes. -/
def expiryWrapDemoOps : List Op :=
  [.put "a" ⟨1, 9223372036854774807⟩ (clockAt 0), .put "b" ⟨2, 1000⟩ (clockAt 1)]

/-- An item that reports `maxInt - 1000` bytes. -/
def evictionWrapDemoOps : List Op :=
  [.put "a" ⟨1, 9223372036854774807⟩ (clockAt 1)]

end Cache

/-!
# The query layer of `query/query.go`

The two parsers of the query layer that do not call the qframe library for
more than constructing values: `unMarshalOrderByClause` and
`unMarshalFilterClause`.  Strings are sequences of characters; the only slice
expression, `s[1:]`, is applied to strings that start with the one-byte
character "-".
-/

namespace Query

/-- Modelled from the spec: the struct `qf.Order` is declared in the qframe
library, which is not under src/ and which the spec leaves out of scope; it has
the two fields the source assigns, `Column` and `Reverse`. -/
structure Order where
  Column : String
  Reverse : Bool
deriving DecidableEq, Repr

/-- The library function `strings.HasPrefix`, on characters: for a one-byte
prefix such as "-" a string starts with the byte exactly when it starts with
the character. -/
def HasPrefix (s pre : String) : Bool := pre.data.isPrefixOf s.data

/-- The slice expression `s[n:]`, for a string whose first `n` characters are
one byte each. -/
def sliceFrom (s : String) (n : Nat) : String := ⟨s.data.drop n⟩

/-- The function `unMarshalOrderByClause`: `result[i]` is built from
`input[i]`. -/
def unMarshalOrderByClause (input : List String) : List Order :=
  input.map (fun s =>
    if HasPrefix s "-" then { Column := sliceFrom s 1, Reverse := true }
    else { Column := s, Reverse := false })

/-- A decoded JSON value, the `interface{}` that `encoding/json` produces:
nil, a bool, a number (its value is not inspected here), a string, a
`[]interface{}` or a `map[string]interface{}`. -/
inductive Json where
  | null
  | bool (b : Bool)
  | number (n : Int)
  | str (s : String)
  | arr (elems : List Json)
  | obj (fields : List (String × Json))

/-- The errors `unMarshalFilterClause` returns: its six `fmt.Errorf` sites, and
the error a clause reports through `Err()`. -/
inductive ClauseError where
  | notAList
  | tooShort
  | operatorNotString
  | notLength
  | clauseLength
  | columnNotString
  | clause (msg : String)
deriving DecidableEq, Repr

/-- Modelled from the spec: the clause type and the clause constructors of the
qframe library (`qf.Null`, `qf.And`, `qf.Or`, `qf.Not`, `qf.Filter`) and the
method `Clause.Err` are not under src/ and the spec leaves them out of scope;
they are parameters of the model. -/
structure ClauseLib (Clause : Type) where
  Null : Clause
  And : List Clause → Clause
  Or : List Clause → Clause
  Not : Clause → Clause
  Filter : String → String → Json → Clause
  Err : Clause → Option String

/-- The result of `c.Err()` as a Go `error`. -/
def clauseErr {Clause : Type} (lib : ClauseLib Clause) (c : Clause) : Option ClauseError :=
  (lib.Err c).map ClauseError.clause

mutual

/-- The function `unMarshalFilterClauses`. -/
def unMarshalFilterClauses {Clause : Type} (lib : ClauseLib Clause) :
    List Json → Except ClauseError (List Clause)
  | [] => .ok []
  | x :: rest =>
    match unMarshalFilterClause lib x with
    | (_, some err) => .error err
    | (c, none) =>
      match unMarshalFilterClauses lib rest with
      | .error err => .error err
      | .ok result => .ok (c :: result)

/-- The function `unMarshalFilterClause`. -/
def unMarshalFilterClause {Clause : Type} (lib : ClauseLib Clause) :
    Json → Clause × Option ClauseError
  | .null => (lib.Null, clauseErr lib lib.Null)
  | .arr [] => (lib.Null, some .tooShort)
  | .arr [_] => (lib.Null, some .tooShort)
  | .arr (.str operator :: x :: rest) =>
    if operator = "and" ∨ operator = "AND" then
      match unMarshalFilterClauses lib (x :: rest) with
      | .error err => (lib.Null, some err)
      | .ok subClauses => (lib.And subClauses, clauseErr lib (lib.And subClauses))
    else if operator = "or" ∨ operator = "OR" then
      match unMarshalFilterClauses lib (x :: rest) with
      | .error err => (lib.Null, some err)
      | .ok subClauses => (lib.Or subClauses, clauseErr lib (lib.Or subClauses))
    else if operator = "not" ∨ operator = "NOT" then
      if (Json.str operator :: x :: rest).length ≠ 2 then (lib.Null, some .notLength)
      else
        match unMarshalFilterClause lib x with
        | (_, some err) => (lib.Null, some err)
        | (subClause, none) => (lib.Not subClause, clauseErr lib (lib.Not subClause))
    else
      if (Json.str operator :: x :: rest).length ≠ 3 then (lib.Null, some .clauseLength)
      else
        match x with
        | .str colName =>
          match rest with
          | [arg] =>
            (lib.Filter operator colName arg, clauseErr lib (lib.Filter operator colName arg))
          | _ => (lib.Null, some .clauseLength)
        | _ => (lib.Null, some .columnNotString)
  | .arr (_ :: _ :: _) => (lib.Null, some .operatorNotString)
  | _ => (lib.Null, some .notAList)

end

/-- Whether a string is one of the six logical operators. -/
def isLogical (op : String) : Prop :=
  op = "and" ∨ op = "AND" ∨ op = "or" ∨ op = "OR" ∨ op = "not" ∨ op = "NOT"

/-- The decoded values the validation rules of `unMarshalFilterClause` reject. -/
inductive Rejected : Json → Prop where
  | notAList (j : Json) : j ≠ .null → (∀ l, j ≠ .arr l) → Rejected j
  | tooShort (l : List Json) : l.length < 2 → Rejected (.arr l)
  | operatorNotString (x : Json) (rest : List Json) :
      (∀ s, x ≠ .str s) → Rejected (.arr (x :: rest))
  | notLength (op : String) (rest : List Json) :
      op = "not" ∨ op = "NOT" → (Json.str op :: rest).length ≠ 2 →
      Rejected (.arr (.str op :: rest))
  | clauseLength (op : String) (rest : List Json) :
      ¬ isLogical op → (Json.str op :: rest).length ≠ 3 → Rejected (.arr (.str op :: rest))
  | columnNotString (op : String) (x : Json) (rest : List Json) :
      ¬ isLogical op → (∀ s, x ≠ .str s) → Rejected (.arr (.str op :: x :: rest))
  | subClause (op : String) (rest : List Json) (sub : Json) :
      isLogical op → sub ∈ rest → Rejected sub → Rejected (.arr (.str op :: rest))

/-- A clause library for examples: clauses are syntax trees and never report
an error. -/
inductive DemoClause where
  | null
  | and (cs : List DemoClause)
  | or (cs : List DemoClause)
  | not (c : DemoClause)
  | filter (comparator column : String) (arg : Json)

/-- The example clause library. -/
def demoLib : ClauseLib DemoClause :=
  { Null := .null, And := .and, Or := .or, Not := .not, Filter := .filter, Err := fun _ => none }

end Query

/-! ## Lemmas and theorems -/

namespace Cache

theorem wrapInt_range (n : Int) : minInt ≤ wrapInt n ∧ wrapInt n ≤ maxInt := by
  unfold wrapInt minInt maxInt
  omega

theorem wrapInt_of_range {n : Int} (h1 : minInt ≤ n) (h2 : n ≤ maxInt) : wrapInt n = n := by
  unfold wrapInt minInt maxInt at *
  omega

theorem wrapInt_add_left (a b : Int) : wrapInt (wrapInt a + b) = wrapInt (a + b) := by
  unfold wrapInt
  omega

theorem wrapInt_add_right (a b : Int) : wrapInt (a + wrapInt b) = wrapInt (a + b) := by
  unfold wrapInt
  omega

theorem wrapInt_sub_left (a b : Int) : wrapInt (wrapInt a - b) = wrapInt (a - b) := by
  unfold wrapInt
  omega

theorem wrapInt_sub_right (a b : Int) : wrapInt (a - wrapInt b) = wrapInt (a - b) := by
  unfold wrapInt
  omega

theorem wrapInt_wrapInt (a : Int) : wrapInt (wrapInt a) = wrapInt a := by
  unfold wrapInt
  omega

theorem len_range (s : String) : 0 ≤ len s ∧ len s ≤ maxInt := by
  unfold len maxInt
  omega

theorem ByteSize_range (item : CacheItem) : minInt ≤ item.ByteSize ∧ item.ByteSize ≤ maxInt :=
  wrapInt_range _

theorem mapGet_mem {m : List (String × Element)} {k : String} {el : Element}
    (h : mapGet m k = some el) : (k, el) ∈ m := by
  induction m with
  | nil => simp [mapGet] at h
  | cons p rest ih =>
    obtain ⟨k1, e1⟩ := p
    simp only [mapGet] at h
    split at h
    · rename_i hk
      simp only [Option.some.injEq] at h
      subst hk; subst h
      exact List.mem_cons_self _ _
    · exact List.mem_cons_of_mem _ (ih h)

theorem mapGet_none {m : List (String × Element)} {k : String}
    (h : mapGet m k = none) (el : Element) : (k, el) ∉ m := by
  induction m with
  | nil => simp
  | cons p rest ih =>
    obtain ⟨k1, e1⟩ := p
    simp only [mapGet] at h
    split at h
    · simp at h
    · rename_i hk
      intro hmem
      rcases List.mem_cons.1 hmem with heq | hrest
      · exact hk (by simp only [Prod.mk.injEq] at heq; exact heq.1.symm)
      · exact ih h hrest

theorem mapGet_of_mem {m : List (String × Element)} {k : String} {el : Element}
    (hnd : (m.map Prod.fst).Nodup) (h : (k, el) ∈ m) : mapGet m k = some el := by
  induction m with
  | nil => simp at h
  | cons p rest ih =>
    obtain ⟨k1, e1⟩ := p
    simp only [List.map_cons, List.nodup_cons] at hnd
    rcases List.mem_cons.1 h with heq | hrest
    · simp only [Prod.mk.injEq] at heq
      simp [mapGet, heq.1, heq.2]
    · have hne : k1 ≠ k := by
        intro hk
        apply hnd.1
        rw [hk]
        exact List.mem_map_of_mem Prod.fst hrest
      simp only [mapGet, hne, if_false]
      exact ih hnd.2 hrest

theorem mem_mapDelete {m : List (String × Element)} {key k : String} {el : Element} :
    (k, el) ∈ mapDelete m key ↔ (k, el) ∈ m ∧ k ≠ key := by
  simp [mapDelete, List.mem_filter]

theorem mapDelete_keys_nodup {m : List (String × Element)} (key : String)
    (hnd : (m.map Prod.fst).Nodup) : ((mapDelete m key).map Prod.fst).Nodup := by
  unfold mapDelete
  exact (List.Nodup.sublist ((List.filter_sublist m).map Prod.fst) hnd)

theorem mapGet_mapDelete_self (m : List (String × Element)) (key : String) :
    mapGet (mapDelete m key) key = none := by
  cases h : mapGet (mapDelete m key) key with
  | none => rfl
  | some el =>
    have := mapGet_mem h
    rw [mem_mapDelete] at this
    exact absurd rfl this.2

theorem mapGet_mapDelete_ne (m : List (String × Element)) {key k : String} (hk : k ≠ key) :
    mapGet (mapDelete m key) k = mapGet m k := by
  induction m with
  | nil => rfl
  | cons p rest ih =>
    obtain ⟨k1, e1⟩ := p
    by_cases h1 : k1 = key
    · have : mapDelete ((k1, e1) :: rest) key = mapDelete rest key := by
        simp [mapDelete, h1]
      rw [this, ih]
      have : k1 ≠ k := by rw [h1]; exact fun h => hk h.symm
      simp [mapGet, this]
    · have : mapDelete ((k1, e1) :: rest) key = (k1, e1) :: mapDelete rest key := by
        simp [mapDelete, h1]
      rw [this]
      simp only [mapGet, ih]

theorem mapGet_mapSet_self (m : List (String × Element)) (key : String) (el : Element) :
    mapGet (mapSet m key el) key = some el := by
  simp [mapSet, mapGet]

theorem mapGet_mapSet_ne (m : List (String × Element)) {key k : String} (el : Element)
    (hk : k ≠ key) : mapGet (mapSet m key el) k = mapGet m k := by
  have : key ≠ k := fun h => hk h.symm
  simp [mapSet, mapGet, this, mapGet_mapDelete_ne m hk]

theorem indexedSize_cons (p : String × Element) (m : List (String × Element)) :
    indexedSize (p :: m) = entrySize p.2 + indexedSize m := by
  simp [indexedSize]

theorem indexedSize_mapDelete_absent {m : List (String × Element)} {key : String}
    (h : key ∉ m.map Prod.fst) : mapDelete m key = m := by
  unfold mapDelete
  rw [List.filter_eq_self]
  intro p hp
  simp only [ne_eq, decide_not, Bool.not_eq_true', decide_eq_false_iff_not]
  intro hk
  exact h (hk ▸ List.mem_map_of_mem Prod.fst hp)

theorem indexedSize_mapDelete {m : List (String × Element)} {key : String} {el : Element}
    (hnd : (m.map Prod.fst).Nodup) (h : (key, el) ∈ m) :
    indexedSize (mapDelete m key) = indexedSize m - entrySize el := by
  induction m with
  | nil => simp at h
  | cons p rest ih =>
    obtain ⟨k1, e1⟩ := p
    simp only [List.map_cons, List.nodup_cons] at hnd
    rcases List.mem_cons.1 h with heq | hrest
    · simp only [Prod.mk.injEq] at heq
      obtain ⟨hk, he⟩ := heq
      subst hk; subst he
      have h1 : mapDelete ((key, el) :: rest) key = mapDelete rest key := by
        simp [mapDelete]
      rw [h1, indexedSize_mapDelete_absent hnd.1, indexedSize_cons]
      simp
    · have hne : k1 ≠ key := by
        intro hk
        apply hnd.1
        rw [hk]
        exact List.mem_map_of_mem Prod.fst hrest
      have h1 : mapDelete ((k1, e1) :: rest) key = (k1, e1) :: mapDelete rest key := by
        simp [mapDelete, hne]
      rw [h1, indexedSize_cons, indexedSize_cons, ih hnd.2 hrest]
      ring

theorem mem_listRemove {l : List Element} {el x : Element} :
    x ∈ listRemove l el ↔ x ∈ l ∧ x.id ≠ el.id := by
  simp [listRemove, List.mem_filter]

theorem listRemove_ids_nodup {l : List Element} (el : Element)
    (hnd : (l.map Element.id).Nodup) : ((listRemove l el).map Element.id).Nodup := by
  unfold listRemove
  exact (List.Nodup.sublist ((List.filter_sublist l).map Element.id) hnd)

theorem eq_of_id_eq {l : List Element} (hnd : (l.map Element.id).Nodup) {x y : Element}
    (hx : x ∈ l) (hy : y ∈ l) (h : x.id = y.id) : x = y :=
  List.inj_on_of_nodup_map hnd hx hy h

theorem listRemove_length_lt {l : List Element} {el : Element} (h : el ∈ l) :
    (listRemove l el).length < l.length := by
  unfold listRemove
  apply List.length_filter_lt_length_iff_exists.2
  exact ⟨el, h, by simp⟩

theorem remove_nil (c : LruCache) (t : Time) : remove c none t = some (c, false) := rfl

theorem remove_ptr (c : LruCache) {el : Element} {i : Nat} (h : el.Value = .elemPtr i)
    (t : Time) : remove c (some el) t = none := by
  simp [remove, h]

theorem remove_entry (c : LruCache) {el : Element} {e : cacheEntry} (h : el.Value = .entry e)
    (t : Time) : remove c (some el) t = some (removed c el e t, true) := by
  simp [remove, h, removed]

theorem Inv_removed {c : LruCache} (hc : Inv c) {el : Element} {e : cacheEntry}
    (hel : el ∈ c.theList) (hv : el.Value = .entry e) (t : Time) :
    Inv (removed c el e t) := by
  have hmap : (e.key, el) ∈ c.theMap := hc.listSound el e hel hv
  refine ⟨?_, ?_, ?_, ?_, ?_, ?_⟩
  · exact mapDelete_keys_nodup _ hc.keysNodup
  · exact listRemove_ids_nodup _ hc.idsNodup
  · intro k x hx
    have hx1 : (k, x) ∈ c.theMap ∧ k ≠ e.key := mem_mapDelete.1 hx
    obtain ⟨hxl, e1, hv1, hk1⟩ := hc.mapSound k x hx1.1
    refine ⟨mem_listRemove.2 ⟨hxl, ?_⟩, e1, hv1, hk1⟩
    intro hid
    have : x = el := eq_of_id_eq hc.idsNodup hxl hel hid
    subst this
    rw [hv] at hv1
    injection hv1 with he
    apply hx1.2
    rw [← hk1, he]
  · intro x e1 hx hv1
    have hx1 : x ∈ c.theList ∧ x.id ≠ el.id := mem_listRemove.1 hx
    refine mem_mapDelete.2 ⟨hc.listSound x e1 hx1.1 hv1, ?_⟩
    intro hk
    have h1 : (e.key, x) ∈ c.theMap := hk ▸ hc.listSound x e1 hx1.1 hv1
    have h2 := mapGet_of_mem hc.keysNodup h1
    have h3 := mapGet_of_mem hc.keysNodup hmap
    rw [h2] at h3
    injection h3 with h3
    exact hx1.2 (by rw [h3])
  · intro x hx
    exact hc.fresh x (mem_listRemove.1 hx).1
  · show wrapInt (c.currentSize - e.size) = wrapInt (60 + indexedSize (mapDelete c.theMap e.key))
    rw [indexedSize_mapDelete hc.keysNodup hmap, hc.sizeEq, wrapInt_sub_left]
    simp only [entrySize, hv]
    congr 1
    ring

theorem Back_mem {l : List Element} {el : Element} (h : Back l = some el) : el ∈ l :=
  List.mem_of_getLast?_eq_some h

theorem Back_eq_none {l : List Element} (h : Back l = none) : l = [] :=
  List.getLast?_eq_none_iff.1 h

/-- Loop rule for `evictLoop`: a property kept by every removal of the back
element holds when the loop ends. -/
theorem evictLoop_rule (Q : LruCache → Prop) (newSize : Int) (now : Nat → Time)
    (hstep : ∀ c el e t, Q c → Back c.theList = some el → el.Value = .entry e →
      Q (removed c el e t)) :
    ∀ (fuel t : Nat) (c : LruCache), Q c →
      (∀ c1 t1, evictLoop newSize now fuel t c = .fits c1 t1 →
          Q c1 ∧ wrapInt (c1.currentSize + newSize) ≤ c1.maxSize) ∧
      (∀ c1, evictLoop newSize now fuel t c = .full c1 →
          Q c1 ∧ c1.theList = [] ∧ wrapInt (c1.currentSize + newSize) > c1.maxSize) ∧
      (∀ c1, evictLoop newSize now fuel t c = .panic c1 → Q c1) := by
  intro fuel
  induction fuel with
  | zero => intro t c _; simp [evictLoop]
  | succ n ih =>
    intro t c hQ
    simp only [evictLoop]
    by_cases hgt : wrapInt (c.currentSize + newSize) > c.maxSize
    · simp only [hgt, if_true]
      cases hb : Back c.theList with
      | none =>
        simp only [remove_nil]
        refine ⟨fun c1 t1 h => by simp at h, fun c1 h => ?_, fun c1 h => by simp at h⟩
        simp only [EvictResult.full.injEq] at h
        subst h
        exact ⟨hQ, Back_eq_none hb, hgt⟩
      | some el =>
        cases hv : el.Value with
        | elemPtr i =>
          simp only [remove_ptr c hv]
          refine ⟨fun c1 t1 h => by simp at h, fun c1 h => by simp at h, fun c1 h => ?_⟩
          simp only [EvictResult.panic.injEq] at h
          subst h
          exact hQ
        | entry e =>
          simp only [remove_entry c hv]
          exact ih (t + 1) _ (hstep c el e (now t) hQ hb hv)
    · simp only [hgt, if_false]
      refine ⟨fun c1 t1 h => ?_, fun c1 h => by simp at h, fun c1 h => by simp at h⟩
      simp only [EvictResult.fits.injEq] at h
      obtain ⟨h1, _⟩ := h
      subst h1
      exact ⟨hQ, not_lt.1 hgt⟩

/-- The eviction loop never exhausts a budget larger than the list length. -/
theorem evictLoop_fuel (newSize : Int) (now : Nat → Time) :
    ∀ (fuel t : Nat) (c : LruCache), c.theList.length < fuel →
      evictLoop newSize now fuel t c ≠ .outOfFuel := by
  intro fuel
  induction fuel with
  | zero => intro t c h; simp at h
  | succ n ih =>
    intro t c hlen
    simp only [evictLoop]
    by_cases hgt : wrapInt (c.currentSize + newSize) > c.maxSize
    · simp only [hgt, if_true]
      cases hb : Back c.theList with
      | none => simp [remove_nil]
      | some el =>
        cases hv : el.Value with
        | elemPtr i => simp [remove_ptr c hv]
        | entry e =>
          simp only [remove_entry c hv]
          apply ih
          have := listRemove_length_lt (Back_mem hb)
          show (listRemove c.theList el).length < n
          omega
    · simp [hgt]

theorem Put_unfold (c : LruCache) (key : String) (item : CacheItem) (now : Nat → Time) :
    Put c key item now =
      match replaceStep c key now with
      | none => .panic c
      | some (c1, t) =>
        match evictLoop (newCacheEntry key item (now t)).size now
            (c1.theList.length + 1) (t + 1) c1 with
        | .panic c2 => .panic c2
        | .outOfFuel => .outOfFuel
        | .full c2 => .ret c2 (some ⟨(newCacheEntry key item (now t)).size⟩)
        | .fits c2 _ => .ret (pushed c2 key (newCacheEntry key item (now t))) none := rfl

theorem Get_unfold (c : LruCache) (key : String) (now : Nat → Time) :
    Get c key now =
      match mapGet c.theMap key with
      | none => .ret c none
      | some elem =>
        match elem.Value with
        | .elemPtr _ => .panic c
        | .entry entry =>
          if hasExpired entry c.maxAge (now 0) then
            match remove c (some elem) (now 1) with
            | none => .panic c
            | some (c1, _) => .ret c1 none
          else .ret (touched c elem) (some entry.item) := rfl

theorem mapGet_mapDelete_of_none {m : List (String × Element)} {key : String}
    (h : mapGet m key = none) (k : String) : mapGet (mapDelete m k) key = none := by
  by_cases hk : key = k
  · rw [hk]; exact mapGet_mapDelete_self m k
  · rw [mapGet_mapDelete_ne m hk]; exact h

theorem mapDelete_of_mapGet_none {m : List (String × Element)} {key : String}
    (h : mapGet m key = none) : mapDelete m key = m := by
  apply indexedSize_mapDelete_absent
  intro hmem
  obtain ⟨p, hp, hk⟩ := List.mem_map.1 hmem
  obtain ⟨k, el⟩ := p
  simp only at hk
  subst hk
  exact mapGet_none h el hp

/-- What `replaceStep` does in a consistent state. -/
theorem replaceStep_spec {c : LruCache} (hc : Inv c) (key : String) (now : Nat → Time) :
    (mapGet c.theMap key = none ∧ replaceStep c key now = some (c, 0)) ∨
    (∃ el e, mapGet c.theMap key = some el ∧ el.Value = .entry e ∧ e.key = key ∧
      el ∈ c.theList ∧ replaceStep c key now = some (removed c el e (now 0), 1)) := by
  cases hg : mapGet c.theMap key with
  | none => left; simp [replaceStep, hg]
  | some el =>
    right
    obtain ⟨hel, e, hv, hk⟩ := hc.mapSound key el (mapGet_mem hg)
    exact ⟨el, e, rfl, hv, hk, hel, by simp [replaceStep, hg, remove_entry c hv]⟩

theorem replaceStep_inv {c : LruCache} (hc : Inv c) {key : String} {now : Nat → Time}
    {c1 : LruCache} {t : Nat} (h : replaceStep c key now = some (c1, t)) :
    Inv c1 ∧ mapGet c1.theMap key = none := by
  rcases replaceStep_spec hc key now with ⟨hg, hr⟩ | ⟨el, e, hg, hv, hk, hel, hr⟩
  · rw [hr] at h
    simp only [Option.some.injEq, Prod.mk.injEq] at h
    rw [← h.1]
    exact ⟨hc, hg⟩
  · rw [hr] at h
    simp only [Option.some.injEq, Prod.mk.injEq] at h
    rw [← h.1]
    refine ⟨Inv_removed hc hel hv _, ?_⟩
    show mapGet (mapDelete c.theMap e.key) key = none
    rw [hk]
    exact mapGet_mapDelete_self _ _

theorem Inv_pushed {c : LruCache} (hc : Inv c) {key : String} (habs : mapGet c.theMap key = none)
    (item : CacheItem) (t : Time) : Inv (pushed c key (newCacheEntry key item t)) := by
  have hdel : mapDelete c.theMap key = c.theMap := mapDelete_of_mapGet_none habs
  refine ⟨?_, ?_, ?_, ?_, ?_, ?_⟩
  · show ((mapSet c.theMap key _).map Prod.fst).Nodup
    simp only [mapSet, hdel, List.map_cons, List.nodup_cons]
    refine ⟨?_, hc.keysNodup⟩
    intro hmem
    obtain ⟨p, hp, hk⟩ := List.mem_map.1 hmem
    obtain ⟨k, el⟩ := p
    simp only at hk
    subst hk
    exact mapGet_none habs el hp
  · show ((_ :: c.theList).map Element.id).Nodup
    simp only [List.map_cons, List.nodup_cons]
    refine ⟨?_, hc.idsNodup⟩
    intro hmem
    obtain ⟨x, hx, hid⟩ := List.mem_map.1 hmem
    have := hc.fresh x hx
    omega
  · intro k x hx
    have hx1 : (k, x) ∈ (key, (⟨c.nextElem, .entry (newCacheEntry key item t)⟩ : Element))
        :: c.theMap := by
      have : (k, x) ∈ mapSet c.theMap key ⟨c.nextElem, .entry (newCacheEntry key item t)⟩ := hx
      simpa only [mapSet, hdel] using this
    rcases List.mem_cons.1 hx1 with heq | hrest
    · simp only [Prod.mk.injEq] at heq
      obtain ⟨hk, hel⟩ := heq
      subst hk; subst hel
      exact ⟨List.mem_cons_self _ _, _, rfl, rfl⟩
    · obtain ⟨hxl, e1, hv1, hk1⟩ := hc.mapSound k x hrest
      exact ⟨List.mem_cons_of_mem _ hxl, e1, hv1, hk1⟩
  · intro x e1 hx hv1
    show (e1.key, x) ∈ mapSet c.theMap key _
    simp only [mapSet, hdel]
    rcases List.mem_cons.1 hx with heq | hrest
    · subst heq
      simp only [ElemValue.entry.injEq] at hv1
      subst hv1
      exact List.mem_cons_self _ _
    · exact List.mem_cons_of_mem _ (hc.listSound x e1 hrest hv1)
  · intro x hx
    show x.id < c.nextElem + 1
    rcases List.mem_cons.1 hx with heq | hrest
    · subst heq; exact Nat.lt_succ_self _
    · exact Nat.lt_succ_of_lt (hc.fresh x hrest)
  · show wrapInt (c.currentSize + (newCacheEntry key item t).size)
        = wrapInt (60 + indexedSize (mapSet c.theMap key _))
    simp only [mapSet, hdel, indexedSize_cons, entrySize]
    rw [hc.sizeEq, wrapInt_add_left]
    congr 1
    ring

theorem Inv_touched {c : LruCache} (hc : Inv c) (elem : Element) : Inv (touched c elem) := by
  refine ⟨hc.keysNodup, ?_, ?_, ?_, ?_, hc.sizeEq⟩
  · show ((_ :: c.theList).map Element.id).Nodup
    simp only [List.map_cons, List.nodup_cons]
    refine ⟨?_, hc.idsNodup⟩
    intro hmem
    obtain ⟨x, hx, hid⟩ := List.mem_map.1 hmem
    have := hc.fresh x hx
    omega
  · intro k x hx
    obtain ⟨hxl, e1, hv1, hk1⟩ := hc.mapSound k x hx
    exact ⟨List.mem_cons_of_mem _ hxl, e1, hv1, hk1⟩
  · intro x e1 hx hv1
    rcases List.mem_cons.1 hx with heq | hrest
    · subst heq; simp at hv1
    · exact hc.listSound x e1 hrest hv1
  · intro x hx
    show x.id < c.nextElem + 1
    rcases List.mem_cons.1 hx with heq | hrest
    · subst heq; exact Nat.lt_succ_self _
    · exact Nat.lt_succ_of_lt (hc.fresh x hrest)

theorem Inv_New (maxSize : Int) (maxAge : Duration) (now : Time) : Inv (New maxSize maxAge now) := by
  refine ⟨?_, ?_, ?_, ?_, ?_, ?_⟩ <;> simp [Cache.New, indexedSize, wrapInt]

theorem Put_ret_spec {c c1 : LruCache} {key : String} {item : CacheItem} {now : Nat → Time}
    {err : Option PutError} (h : Put c key item now = .ret c1 err) :
    ∃ c0 t, replaceStep c key now = some (c0, t) ∧
      ((∃ c2 t2, evictLoop (newCacheEntry key item (now t)).size now
            (c0.theList.length + 1) (t + 1) c0 = .fits c2 t2 ∧
          c1 = pushed c2 key (newCacheEntry key item (now t)) ∧ err = none) ∨
       (evictLoop (newCacheEntry key item (now t)).size now
            (c0.theList.length + 1) (t + 1) c0 = .full c1 ∧
          err = some ⟨(newCacheEntry key item (now t)).size⟩)) := by
  rw [Put_unfold] at h
  cases hr : replaceStep c key now with
  | none => simp [hr] at h
  | some p =>
    obtain ⟨c0, t⟩ := p
    refine ⟨c0, t, rfl, ?_⟩
    simp only [hr] at h
    cases he : evictLoop (newCacheEntry key item (now t)).size now
        (c0.theList.length + 1) (t + 1) c0 with
    | panic c2 => simp [he] at h
    | outOfFuel => simp [he] at h
    | full c2 =>
      simp only [he, Result.ret.injEq] at h
      right
      exact ⟨by rw [h.1], h.2.symm⟩
    | fits c2 t2 =>
      simp only [he, Result.ret.injEq] at h
      left
      exact ⟨c2, t2, rfl, h.1.symm, h.2.symm⟩

/-- Where a panic of `Put` comes from: the type assertion in the removal of the
replaced entry, or the one in the eviction loop. -/
theorem Put_panic_spec {c c1 : LruCache} {key : String} {item : CacheItem} {now : Nat → Time}
    (h : Put c key item now = .panic c1) :
    (replaceStep c key now = none ∧ c1 = c) ∨
    (∃ c0 t, replaceStep c key now = some (c0, t) ∧
      evictLoop (newCacheEntry key item (now t)).size now
        (c0.theList.length + 1) (t + 1) c0 = .panic c1) := by
  rw [Put_unfold] at h
  cases hr : replaceStep c key now with
  | none =>
    simp only [hr, Result.panic.injEq] at h
    exact Or.inl ⟨rfl, h.symm⟩
  | some p =>
    obtain ⟨c0, t⟩ := p
    refine Or.inr ⟨c0, t, rfl, ?_⟩
    simp only [hr] at h
    cases he : evictLoop (newCacheEntry key item (now t)).size now
        (c0.theList.length + 1) (t + 1) c0 with
    | panic c2 =>
      simp only [he, Result.panic.injEq] at h
      rw [h]
    | outOfFuel => simp [he] at h
    | full c2 => simp [he] at h
    | fits c2 t2 => simp [he] at h

/-- Rule for `Put`: a property kept by every removal and by the final push
holds in the state a `Put` leaves behind. -/
theorem Put_preserves (Q : LruCache → Prop) (key : String) (item : CacheItem)
    (hrem : ∀ c el e t, Inv c → Q c → el ∈ c.theList → el.Value = .entry e →
      Q (removed c el e t))
    (hpush : ∀ c t, Inv c → Q c → mapGet c.theMap key = none →
      wrapInt (c.currentSize + (newCacheEntry key item t).size) ≤ c.maxSize →
      Q (pushed c key (newCacheEntry key item t)))
    {c c1 : LruCache} {now : Nat → Time}
    (hc : Inv c) (hq : Q c) (h : (Put c key item now).state = some c1) : Inv c1 ∧ Q c1 := by
  have hstart : ∀ c0 t, replaceStep c key now = some (c0, t) →
      (Inv c0 ∧ mapGet c0.theMap key = none) ∧ Q c0 := by
    intro c0 t hr
    refine ⟨replaceStep_inv hc hr, ?_⟩
    rcases replaceStep_spec hc key now with ⟨_, hr1⟩ | ⟨el, e, _, hv, _, hel, hr1⟩
    · rw [hr1] at hr
      simp only [Option.some.injEq, Prod.mk.injEq] at hr
      rw [← hr.1]; exact hq
    · rw [hr1] at hr
      simp only [Option.some.injEq, Prod.mk.injEq] at hr
      rw [← hr.1]; exact hrem c el e _ hc hq hel hv
  have hloop := fun c0 t (hr : replaceStep c key now = some (c0, t)) => evictLoop_rule
    (fun s => (Inv s ∧ mapGet s.theMap key = none) ∧ Q s)
    (newCacheEntry key item (now t)).size now
    (fun s el e t1 hs hb hv =>
      ⟨⟨Inv_removed hs.1.1 (Back_mem hb) hv t1, mapGet_mapDelete_of_none hs.1.2 _⟩,
        hrem s el e t1 hs.1.1 hs.2 (Back_mem hb) hv⟩)
    (c0.theList.length + 1) (t + 1) c0 (hstart c0 t hr)
  cases hp : Put c key item now with
  | outOfFuel => simp [hp, Result.state] at h
  | ret c2 err =>
    simp only [hp, Result.state, Option.some.injEq] at h
    subst h
    obtain ⟨c0, t, hr, hcase⟩ := Put_ret_spec hp
    rcases hcase with ⟨c3, t3, he, hc1, _⟩ | ⟨he, _⟩
    · obtain ⟨⟨⟨hi2, habs⟩, hq2⟩, hfit⟩ := (hloop c0 t hr).1 c3 t3 he
      rw [hc1]
      exact ⟨Inv_pushed hi2 habs item _, hpush c3 _ hi2 hq2 habs hfit⟩
    · obtain ⟨⟨⟨hi2, _⟩, hq2⟩, _⟩ := (hloop c0 t hr).2.1 c2 he
      exact ⟨hi2, hq2⟩
  | panic c2 =>
    simp only [hp, Result.state, Option.some.injEq] at h
    subst h
    rcases Put_panic_spec hp with ⟨_, h1⟩ | ⟨c0, t, hr, he⟩
    · rw [h1]; exact ⟨hc, hq⟩
    · obtain ⟨⟨hi2, _⟩, hq2⟩ := (hloop c0 t hr).2.2 c2 he
      exact ⟨hi2, hq2⟩

theorem Get_ret_spec {c c1 : LruCache} (hc : Inv c) {key : String} {now : Nat → Time}
    {r : Option CacheItem} (h : Get c key now = .ret c1 r) :
    (mapGet c.theMap key = none ∧ c1 = c ∧ r = none) ∨
    (∃ el e, mapGet c.theMap key = some el ∧ el.Value = .entry e ∧ e.key = key ∧
      el ∈ c.theList ∧
      ((hasExpired e c.maxAge (now 0) = true ∧ c1 = removed c el e (now 1) ∧ r = none) ∨
       (hasExpired e c.maxAge (now 0) = false ∧ c1 = touched c el ∧ r = some e.item))) := by
  rw [Get_unfold] at h
  cases hg : mapGet c.theMap key with
  | none =>
    simp only [hg, Result.ret.injEq] at h
    exact Or.inl ⟨rfl, h.1.symm, h.2.symm⟩
  | some el =>
    obtain ⟨hel, e, hv, hk⟩ := hc.mapSound key el (mapGet_mem hg)
    refine Or.inr ⟨el, e, rfl, hv, hk, hel, ?_⟩
    simp only [hg, hv] at h
    cases hx : hasExpired e c.maxAge (now 0) with
    | true =>
      simp only [hx, if_true, remove_entry c hv, Result.ret.injEq] at h
      exact Or.inl ⟨rfl, h.1.symm, h.2.symm⟩
    | false =>
      simp only [hx, Result.ret.injEq] at h
      simp at h
      exact Or.inr ⟨rfl, h.1.symm, h.2.symm⟩

/-- In a consistent state `Get` does not panic: the indexed elements hold
entries. -/
theorem Get_returns {c : LruCache} (hc : Inv c) (key : String) (now : Nat → Time) :
    ∃ c1 r, Get c key now = .ret c1 r := by
  rw [Get_unfold]
  cases hg : mapGet c.theMap key with
  | none => exact ⟨_, _, rfl⟩
  | some el =>
    obtain ⟨_, e, hv, _⟩ := hc.mapSound key el (mapGet_mem hg)
    simp only [hv]
    cases hx : hasExpired e c.maxAge (now 0) with
    | true =>
      simp only [if_true, remove_entry c hv]
      exact ⟨_, _, rfl⟩
    | false => exact ⟨_, _, rfl⟩

/-- Rule for `Get`: a property kept by every removal and by the push of a
`Get` hit holds in the state a `Get` leaves behind. -/
theorem Get_preserves (Q : LruCache → Prop)
    (hrem : ∀ c el e t, Inv c → Q c → el ∈ c.theList → el.Value = .entry e →
      Q (removed c el e t))
    (htouch : ∀ c el, Inv c → Q c → Q (touched c el))
    {c c1 : LruCache} {key : String} {now : Nat → Time}
    (hc : Inv c) (hq : Q c) (h : (Get c key now).state = some c1) : Inv c1 ∧ Q c1 := by
  obtain ⟨c2, r, hget⟩ := Get_returns hc key now
  simp only [hget, Result.state, Option.some.injEq] at h
  subst h
  rcases Get_ret_spec hc hget with
    ⟨_, h1, _⟩ | ⟨el, e, _, hv, _, hel, ⟨_, h1, _⟩ | ⟨_, h1, _⟩⟩
  · rw [h1]; exact ⟨hc, hq⟩
  · rw [h1]; exact ⟨Inv_removed hc hel hv _, hrem c el e _ hc hq hel hv⟩
  · rw [h1]; exact ⟨Inv_touched hc el, htouch c el hc hq⟩

theorem Stats_ret_spec {c c1 : LruCache} {now : Time} {r : CacheStats}
    (h : Stats c now = .ret c1 r) :
    c1 = { c with lastStat := now, timesToEviction := [] } ∧
    r = { TimeToEviction := c.timesToEviction, ByteSize := c.currentSize,
          ItemCount := c.theMap.length, StatDuration := now - c.lastStat } := by
  simp only [Stats, Result.ret.injEq] at h
  exact ⟨h.1.symm, h.2.symm⟩

theorem Inv_statsReset {c : LruCache} (hc : Inv c) (now : Time) :
    Inv { c with lastStat := now, timesToEviction := [] } :=
  ⟨hc.keysNodup, hc.idsNodup, hc.mapSound, hc.listSound, hc.fresh, hc.sizeEq⟩

/-- Rule for a sequence of calls: a property of the start state that is kept by
the elementary state changes holds after every sequence of calls. -/
theorem run_preserves (P : String → CacheItem → Prop) (Q : LruCache → Prop)
    (hrem : ∀ c el e t, Inv c → Q c → el ∈ c.theList → el.Value = .entry e →
      Q (removed c el e t))
    (hpush : ∀ c key item t, P key item → Inv c → Q c → mapGet c.theMap key = none →
      wrapInt (c.currentSize + (newCacheEntry key item t).size) ≤ c.maxSize →
      Q (pushed c key (newCacheEntry key item t)))
    (htouch : ∀ c el, Inv c → Q c → Q (touched c el))
    (hstats : ∀ c now, Inv c → Q c → Q { c with lastStat := now, timesToEviction := [] }) :
    ∀ (ops : List Op) (c c1 : LruCache), (∀ op ∈ ops, op.putSatisfies P) →
      Inv c → Q c → run c ops = some c1 → Inv c1 ∧ Q c1 := by
  intro ops
  induction ops with
  | nil =>
    intro c c1 _ hc hq h
    simp only [run, Option.some.injEq] at h
    rw [← h]; exact ⟨hc, hq⟩
  | cons op ops ih =>
    intro c c1 hP hc hq h
    simp only [run] at h
    cases hs : step c op with
    | none => simp [hs] at h
    | some c2 =>
      simp only [hs] at h
      have hP1 : ∀ o ∈ ops, o.putSatisfies P := fun o ho => hP o (List.mem_cons_of_mem _ ho)
      have hop : op.putSatisfies P := hP op (List.mem_cons_self _ _)
      have h2 : Inv c2 ∧ Q c2 := by
        cases op with
        | put key item now =>
          exact Put_preserves Q key item hrem
            (fun s t hi hq1 habs hfit => hpush s key item t hop hi hq1 habs hfit) hc hq hs
        | get key now =>
          exact Get_preserves Q hrem htouch hc hq hs
        | stats now =>
          simp only [step, Stats, Result.state, Option.some.injEq] at hs
          subst hs
          exact ⟨Inv_statsReset hc now, hstats c now hc hq⟩
      exact ih c2 c1 hP1 h2.1 h2.2 h

theorem Reachable_inv {c : LruCache} (h : Reachable c) : Inv c := by
  obtain ⟨maxSize, maxAge, now, ops, hrun⟩ := h
  exact (run_preserves (fun _ _ => True) (fun _ => True)
    (fun _ _ _ _ _ _ _ _ => trivial) (fun _ _ _ _ _ _ _ _ _ => trivial)
    (fun _ _ _ _ => trivial) (fun _ _ _ _ => trivial)
    ops _ c (fun op _ => by cases op <;> trivial) (Inv_New maxSize maxAge now) trivial hrun).1

theorem newCacheEntry_size (key : String) (item : CacheItem) (t : Time) :
    (newCacheEntry key item t).size = wrapInt (152 + len key + item.ByteSize) := by
  simp only [newCacheEntry, mapEntrySize]
  congr 1
  ring

theorem removed_maxSize (c : LruCache) (el : Element) (e : cacheEntry) (t : Time) :
    (removed c el e t).maxSize = c.maxSize := rfl

/-- The configuration fixed by `New` never changes. -/
theorem run_config {maxSize : Int} {maxAge : Duration} {now : Time} {ops : List Op}
    {c : LruCache} (h : run (New maxSize maxAge now) ops = some c) :
    Inv c ∧ c.maxAge = maxAge ∧ c.maxSize = max maxSize 1000000 := by
  refine run_preserves (fun _ _ => True)
    (fun s => s.maxAge = maxAge ∧ s.maxSize = max maxSize 1000000)
    (fun _ _ _ _ _ hq _ _ => hq) (fun _ _ _ _ _ _ hq _ _ => hq)
    (fun _ _ _ hq => hq) (fun _ _ _ hq => hq)
    ops _ c (fun op _ => by cases op <;> trivial) (Inv_New maxSize maxAge now) ⟨rfl, ?_⟩ h
  show (if maxSize ≤ minMaxSize then minMaxSize else maxSize) = max maxSize 1000000
  unfold minMaxSize
  split
  · rw [max_eq_right]; assumption
  · rw [max_eq_left]; omega

/-- Claim C1, counterexample.  Two items that each report `maxInt - 100` bytes
are both stored in a new cache; their `size` fields are -9223372036854775756
each, `currentSize` is 164, and the base overhead plus the sum of the two
`size` fields is -18446744073709551452. -/
theorem size_total_wraps :
    Put (New 0 0 0) "a" ⟨1, 9223372036854775707⟩ (clockAt 1)
      = .ret (stateAfter (New 0 0 0) [.put "a" ⟨1, 9223372036854775707⟩ (clockAt 1)]) none ∧
    Put (stateAfter (New 0 0 0) [.put "a" ⟨1, 9223372036854775707⟩ (clockAt 1)])
        "b" ⟨2, 9223372036854775707⟩ (clockAt 2)
      = .ret (stateAfter (New 0 0 0) wrapDemoOps) none ∧
    (stateAfter (New 0 0 0) wrapDemoOps).theMap.map (fun p => entrySize p.2)
      = [-9223372036854775756, -9223372036854775756] ∧
    (stateAfter (New 0 0 0) wrapDemoOps).currentSize = 164 ∧
    60 + indexedSize (stateAfter (New 0 0 0) wrapDemoOps).theMap = -18446744073709551452 ∧
    (stateAfter (New 0 0 0) wrapDemoOps).currentSize
      ≠ 60 + indexedSize (stateAfter (New 0 0 0) wrapDemoOps).theMap :=
  ⟨rfl, rfl, rfl, rfl, rfl, by decide⟩

/-- Claim C1, amended (size invariant in `int` arithmetic).  After every finite
sequence of `Put`, `Get` and `Stats` calls on a cache created by `New` (each
call made in the state the previous one left behind), `currentSize` equals the
base overhead 60 plus the sum of the `size` fields of the entries held in the
key index, reduced to the range of `int`; it is that sum itself whenever the
sum lies between `minInt` and `maxInt`.  Every indexed element holds an entry,
and the `ByteSize` a following `Stats` call reports is `currentSize`. -/
theorem size_invariant (maxSize : Int) (maxAge : Duration) (t0 : Time) (ops : List Op)
    (c : LruCache) (h : run (New maxSize maxAge t0) ops = some c) :
    c.currentSize = wrapInt (60 + indexedSize c.theMap) ∧
    (minInt ≤ 60 + indexedSize c.theMap → 60 + indexedSize c.theMap ≤ maxInt →
      c.currentSize = 60 + indexedSize c.theMap) ∧
    (∀ k el, (k, el) ∈ c.theMap → ∃ e, el.Value = .entry e ∧ entrySize el = e.size) ∧
    (∀ now c1 st, Stats c now = .ret c1 st →
      st.ByteSize = wrapInt (60 + indexedSize c.theMap)) := by
  have hc : Inv c := (run_config h).1
  refine ⟨hc.sizeEq, ?_, ?_, ?_⟩
  · intro h1 h2
    rw [hc.sizeEq, wrapInt_of_range h1 h2]
  · intro k el hmem
    obtain ⟨_, e, hv, _⟩ := hc.mapSound k el hmem
    exact ⟨e, hv, by simp [entrySize, hv]⟩
  · intro now c1 st hst
    rw [(Stats_ret_spec hst).2]
    exact hc.sizeEq

/-- Claim C1 amended, instance: store, read, replace, read statistics. -/
theorem size_invariant_witness :
    run (New 0 0 0) sizeDemoOps = some (stateAfter (New 0 0 0) sizeDemoOps) ∧
      (stateAfter (New 0 0 0) sizeDemoOps).currentSize
        = 60 + indexedSize (stateAfter (New 0 0 0) sizeDemoOps).theMap ∧
      (stateAfter (New 0 0 0) sizeDemoOps).currentSize = 233 :=
  ⟨rfl,
    (size_invariant 0 0 0 sizeDemoOps (stateAfter (New 0 0 0) sizeDemoOps) rfl).2.1
      (by decide) (by decide),
    rfl⟩

/-- Claim C2, counterexample.  In a cache with maximum 1000000 and maximum age
10, an item that reports `maxInt` bytes and four items of 300000 bytes are all
stored (every `ByteSize` is non-negative, nothing is evicted); after the read
that expires the first item, `currentSize` is 1200672. -/
theorem capacity_bound_fails :
    (∀ op ∈ boundDemoOps, op.putSatisfies (fun _ item => 0 ≤ item.ByteSize)) ∧
    run (New 0 10 0) boundDemoOps = some (stateAfter (New 0 10 0) boundDemoOps) ∧
    (stateAfter (New 0 10 0) boundDemoOps).theMap.map Prod.fst = ["d", "c", "b", "a"] ∧
    (stateAfter (New 0 10 0) boundDemoOps).currentSize = 1200672 ∧
    ¬ ((stateAfter (New 0 10 0) boundDemoOps).currentSize ≤ max 0 1000000) :=
  ⟨by simp [boundDemoOps, Op.putSatisfies, CacheItem.ByteSize, wrapInt], rfl, rfl, rfl,
    by decide⟩

theorem indexedSize_nonneg {m : List (String × Element)}
    (h : ∀ k el, (k, el) ∈ m → 0 ≤ entrySize el) : 0 ≤ indexedSize m := by
  induction m with
  | nil => simp [indexedSize]
  | cons p rest ih =>
    rw [indexedSize_cons]
    have h1 : 0 ≤ entrySize p.2 := h p.1 p.2 (List.mem_cons_self _ _)
    have h2 := ih (fun k el hm => h k el (List.mem_cons_of_mem _ hm))
    omega

/-- Claim C2, amended (capacity bound without overflow).  After every finite
sequence of `Put`, `Get` and `Stats` calls on a cache created by
`New maxSize maxAge`, all of whose items report a non-negative `ByteSize` small
enough for the accounting not to overflow (the floor-adjusted maximum plus the
entry size `152 + len(key) + item.ByteSize()` is at most `maxInt`),
`currentSize` is at most the floor-adjusted maximum `max maxSize 1000000`:
after every `Put`, successful or not, and after every `Get` and `Stats`. -/
theorem capacity_bound (maxSize : Int) (maxAge : Duration) (t0 : Time) (ops : List Op)
    (c : LruCache)
    (hnn : ∀ op ∈ ops, op.putSatisfies (fun key item => 0 ≤ item.ByteSize ∧
      max maxSize 1000000 + (152 + len key + item.ByteSize) ≤ maxInt))
    (h : run (New maxSize maxAge t0) ops = some c) :
    c.currentSize ≤ max maxSize 1000000 := by
  have key := run_preserves
    (fun key item => 0 ≤ item.ByteSize ∧
      max maxSize 1000000 + (152 + len key + item.ByteSize) ≤ maxInt)
    (fun s => (∀ k el, (k, el) ∈ s.theMap →
        0 ≤ entrySize el ∧ max maxSize 1000000 + entrySize el ≤ maxInt) ∧
      s.currentSize = 60 + indexedSize s.theMap ∧
      s.currentSize ≤ s.maxSize ∧ s.maxSize = max maxSize 1000000)
    ?_ ?_ ?_ ?_ ops _ c hnn (Inv_New maxSize maxAge t0) ?_ h
  · obtain ⟨_, _, _, h1, h2⟩ := key
    rw [← h2]; exact h1
  · intro s el e t hs hq hel hv
    obtain ⟨hent, hexact, hle, hmax⟩ := hq
    have hmem : (e.key, el) ∈ s.theMap := hs.listSound el e hel hv
    have hes : entrySize el = e.size := by simp [entrySize, hv]
    have hsz := hent _ _ hmem
    rw [hes] at hsz
    have hent1 : ∀ k x, (k, x) ∈ mapDelete s.theMap e.key →
        0 ≤ entrySize x ∧ max maxSize 1000000 + entrySize x ≤ maxInt :=
      fun k x hx => hent k x (mem_mapDelete.1 hx).1
    have hsum : indexedSize (mapDelete s.theMap e.key) = indexedSize s.theMap - e.size := by
      rw [indexedSize_mapDelete hs.keysNodup hmem, hes]
    have hnn1 := indexedSize_nonneg (fun k x hx => (hent1 k x hx).1)
    have hcur : wrapInt (s.currentSize - e.size) = s.currentSize - e.size := by
      apply wrapInt_of_range
      · unfold minInt; omega
      · omega
    refine ⟨hent1, ?_, ?_, hmax⟩
    · show wrapInt (s.currentSize - e.size) = 60 + indexedSize (mapDelete s.theMap e.key)
      rw [hcur, hsum, hexact]; ring
    · show wrapInt (s.currentSize - e.size) ≤ s.maxSize
      rw [hcur]; omega
  · intro s key item t hitem hs hq habs hfit
    obtain ⟨hent, hexact, hle, hmax⟩ := hq
    have hdel : mapDelete s.theMap key = s.theMap := mapDelete_of_mapGet_none habs
    have hlen := len_range key
    have hM : (1000000 : Int) ≤ max maxSize 1000000 := le_max_right _ _
    have hsize : (newCacheEntry key item t).size = 152 + len key + item.ByteSize := by
      rw [newCacheEntry_size]
      apply wrapInt_of_range
      · unfold minInt; omega
      · omega
    have hnn0 := indexedSize_nonneg (fun k x hx => (hent k x hx).1)
    have hcur : wrapInt (s.currentSize + (newCacheEntry key item t).size)
        = s.currentSize + (newCacheEntry key item t).size := by
      apply wrapInt_of_range
      · unfold minInt; omega
      · omega
    rw [hcur] at hfit
    refine ⟨?_, ?_, ?_, hmax⟩
    · intro k x hx
      have hx1 : (k, x) ∈ (key, (⟨s.nextElem, .entry (newCacheEntry key item t)⟩ : Element))
          :: s.theMap := by
        have : (k, x) ∈ mapSet s.theMap key ⟨s.nextElem, .entry (newCacheEntry key item t)⟩ :=
          hx
        simpa only [mapSet, hdel] using this
      rcases List.mem_cons.1 hx1 with heq | hrest
      · simp only [Prod.mk.injEq] at heq
        rw [heq.2]
        show 0 ≤ (newCacheEntry key item t).size ∧
          max maxSize 1000000 + (newCacheEntry key item t).size ≤ maxInt
        rw [hsize]
        omega
      · exact hent k x hrest
    · show wrapInt (s.currentSize + (newCacheEntry key item t).size)
          = 60 + indexedSize (mapSet s.theMap key _)
      simp only [mapSet, hdel, indexedSize_cons, entrySize]
      rw [hcur, hexact]; ring
    · show wrapInt (s.currentSize + (newCacheEntry key item t).size) ≤ s.maxSize
      rw [hcur]; exact hfit
  · intro s el _ hq
    exact hq
  · intro s now _ hq
    exact hq
  · refine ⟨by simp [Cache.New], by simp [Cache.New, indexedSize], ?_, ?_⟩
    · show (60 : Int) ≤ if maxSize ≤ minMaxSize then minMaxSize else maxSize
      unfold minMaxSize
      split <;> omega
    · show (if maxSize ≤ minMaxSize then minMaxSize else maxSize) = max maxSize 1000000
      unfold minMaxSize
      split
      · rw [max_eq_right]; assumption
      · rw [max_eq_left]; omega

/-- Claim C2 amended, instance: a session in which `Put` has to evict. -/
theorem capacity_bound_witness :
    (∀ op ∈ capacityDemoOps, op.putSatisfies (fun key item => 0 ≤ item.ByteSize ∧
      max 0 1000000 + (152 + len key + item.ByteSize) ≤ maxInt)) ∧
    run (New 0 0 0) capacityDemoOps = some (stateAfter (New 0 0 0) capacityDemoOps) ∧
    (stateAfter (New 0 0 0) capacityDemoOps).currentSize ≤ max 0 1000000 :=
  have h : ∀ op ∈ capacityDemoOps, op.putSatisfies (fun key item => 0 ≤ item.ByteSize ∧
      max 0 1000000 + (152 + len key + item.ByteSize) ≤ maxInt) := by
    intro op hop
    simp only [capacityDemoOps, List.mem_cons, List.mem_singleton, List.not_mem_nil,
      or_false] at hop
    rcases hop with h | h | h | h | h <;> subst h <;> trivial
  ⟨h, rfl, capacity_bound 0 0 0 capacityDemoOps _ h rfl⟩

theorem entryOf_eq_some {c : LruCache} {key : String} {e : cacheEntry}
    (h : entryOf c key = some e) :
    ∃ el, mapGet c.theMap key = some el ∧ el.Value = .entry e := by
  unfold entryOf at h
  cases hg : mapGet c.theMap key with
  | none => simp [hg] at h
  | some el =>
    simp only [hg] at h
    cases hv : el.Value with
    | elemPtr i => simp [hv] at h
    | entry e1 =>
      simp only [hv, Option.some.injEq] at h
      exact ⟨el, rfl, by rw [hv, h]⟩

theorem entryOf_pushed (c : LruCache) (key : String) (e : cacheEntry) :
    entryOf (pushed c key e) key = some e := by
  have : mapGet (pushed c key e).theMap key = some ⟨c.nextElem, .entry e⟩ :=
    mapGet_mapSet_self _ _ _
  simp [entryOf, this]

/-- Claim C3 (LRU promotion), the code at the failing input.  With A, B, C
stored in that order, `Get "A"` hits but leaves the entry of A at the back of
the list: it pushes a new element holding the pointer in front.  The following
`Put "D"`, which needs exactly one eviction, evicts A and keeps B: afterwards
`Get "A"` reports not found and `Get "B"` still returns its item. -/
theorem get_hit_does_not_promote :
    run (New 0 0 0) lruDemoOps = some (stateAfter (New 0 0 0) lruDemoOps) ∧
    (stateAfter (New 0 0 0) lruDemoOps).theList.map Element.Value =
      [.elemPtr 0,
       .entry ⟨⟨3, 300000⟩, 3, "C", 300153⟩,
       .entry ⟨⟨2, 300000⟩, 2, "B", 300153⟩,
       .entry ⟨⟨1, 300000⟩, 1, "A", 300153⟩] ∧
    (∃ c1, Put (stateAfter (New 0 0 0) lruDemoOps) "D" ⟨4, 300000⟩ (clockAt 5) = .ret c1 none ∧
      c1.theMap.map Prod.fst = ["D", "C", "B"] ∧
      (Get c1 "A" (clockAt 6) = .ret c1 none) ∧
      (∃ c2, Get c1 "B" (clockAt 6) = .ret c2 (some ⟨2, 300000⟩))) :=
  ⟨rfl, rfl, _, rfl, rfl, rfl, _, rfl⟩

/-- Claim C4 (no operation crashes), the code at the failing input.  After
`Put "a"`, a `Get "a"` hit and `Put "b"`, a `Put "c"` of an item that fits an
empty cache evicts the entry of "a", then takes the pointer element left by
`Get` from the back of the list, and the type assertion in `remove` panics. -/
theorem put_panics_after_get_hit :
    run (New 0 0 0) panicDemoOps = some (stateAfter (New 0 0 0) panicDemoOps) ∧
    (60 + (newCacheEntry "c" ⟨3, 700000⟩ 4).size ≤ (stateAfter (New 0 0 0) panicDemoOps).maxSize) ∧
    (∃ c1, Put (stateAfter (New 0 0 0) panicDemoOps) "c" ⟨3, 700000⟩ (clockAt 4) = .panic c1) :=
  ⟨rfl, by decide, _, rfl⟩

/-- Claim C5 (Put/Get round trip).  In every cache state (reachable ones in
particular), if `Put key item` returns nil then a directly following `Get key`,
made while the entry is not expired (`maxAge <= 0`, or the age of the stored
entry at the `Get` is at most `maxAge`), returns exactly `item` with
found = true. -/
theorem put_get_roundtrip (c c1 : LruCache) (key : String) (item : CacheItem)
    (now nowG : Nat → Time) (hput : Put c key item now = .ret c1 none)
    (hfresh : c1.maxAge ≤ 0 ∨
      ∃ e, entryOf c1 key = some e ∧ nowG 0 - e.createTime ≤ c1.maxAge) :
    ∃ c2, Get c1 key nowG = .ret c2 (some item) := by
  obtain ⟨c0, t, _, hcase⟩ := Put_ret_spec hput
  rcases hcase with ⟨c2, t2, _, hc1, _⟩ | ⟨_, herr⟩
  · have hg : mapGet c1.theMap key
        = some ⟨c2.nextElem, .entry (newCacheEntry key item (now t))⟩ := by
      rw [hc1]; exact mapGet_mapSet_self _ _ _
    have hx : hasExpired (newCacheEntry key item (now t)) c1.maxAge (nowG 0) = false := by
      rcases hfresh with hle | ⟨e, he, hage⟩
      · have : ¬ c1.maxAge > 0 := not_lt.2 hle
        simp [hasExpired, this]
      · rw [hc1, entryOf_pushed] at he
        injection he with he
        rw [← he] at hage
        have : ¬ nowG 0 - (newCacheEntry key item (now t)).createTime > c1.maxAge :=
          not_lt.2 hage
        simp [hasExpired, this]
    refine ⟨touched c1 ⟨c2.nextElem, .entry (newCacheEntry key item (now t))⟩, ?_⟩
    rw [Get_unfold]
    simp only [hg, hx]
    rfl
  · simp at herr

/-- Claim C5, instance: maximum age 10, stored at time 5, read at time 15. -/
theorem put_get_roundtrip_witness :
    Put (New 0 10 0) "k" ⟨7, 100⟩ (clockAt 5)
      = .ret (stateAfter (New 0 10 0) [.put "k" ⟨7, 100⟩ (clockAt 5)]) none ∧
    (∃ e, entryOf (stateAfter (New 0 10 0) [.put "k" ⟨7, 100⟩ (clockAt 5)]) "k" = some e ∧
      clockAt 15 0 - e.createTime
        ≤ (stateAfter (New 0 10 0) [.put "k" ⟨7, 100⟩ (clockAt 5)]).maxAge) ∧
    ∃ c2, Get (stateAfter (New 0 10 0) [.put "k" ⟨7, 100⟩ (clockAt 5)]) "k" (clockAt 15)
      = .ret c2 (some ⟨7, 100⟩) :=
  ⟨rfl, ⟨_, rfl, by decide⟩,
    put_get_roundtrip (New 0 10 0) _ "k" ⟨7, 100⟩ (clockAt 5) (clockAt 15) rfl
      (Or.inr ⟨_, rfl, by decide⟩)⟩

theorem mapDelete_idem (m : List (String × Element)) (key : String) :
    mapDelete (mapDelete m key) key = mapDelete m key :=
  mapDelete_of_mapGet_none (mapGet_mapDelete_self m key)

theorem filter_key_mapDelete (m : List (String × Element)) (key : String) :
    (mapDelete m key).filter (fun p => decide (p.1 = key)) = [] := by
  rw [List.filter_eq_nil_iff]
  intro p hp
  obtain ⟨k, el⟩ := p
  have := (mem_mapDelete.1 hp).2
  simpa using this

theorem length_mapDelete {m : List (String × Element)} {key : String} {el : Element}
    (hnd : (m.map Prod.fst).Nodup) (h : (key, el) ∈ m) :
    (mapDelete m key).length + 1 = m.length := by
  induction m with
  | nil => simp at h
  | cons p rest ih =>
    obtain ⟨k1, e1⟩ := p
    simp only [List.map_cons, List.nodup_cons] at hnd
    rcases List.mem_cons.1 h with heq | hrest
    · simp only [Prod.mk.injEq] at heq
      obtain ⟨hk, he⟩ := heq
      subst hk; subst he
      have h1 : mapDelete ((key, el) :: rest) key = mapDelete rest key := by
        simp [mapDelete]
      rw [h1, indexedSize_mapDelete_absent hnd.1]
      rfl
    · have hne : k1 ≠ key := by
        intro hk
        apply hnd.1
        rw [hk]
        exact List.mem_map_of_mem Prod.fst hrest
      have h1 : mapDelete ((k1, e1) :: rest) key = (k1, e1) :: mapDelete rest key := by
        simp [mapDelete, hne]
      rw [h1, List.length_cons, List.length_cons, ih hnd.2 hrest]

theorem evictLoop_fits_now (newSize : Int) (now : Nat → Time) (fuel t : Nat) (c : LruCache)
    (h : wrapInt (c.currentSize + newSize) ≤ c.maxSize) :
    evictLoop newSize now (fuel + 1) t c = .fits c t := by
  have : ¬ wrapInt (c.currentSize + newSize) > c.maxSize := not_lt.2 h
  simp [evictLoop, this]

/-- Claim C6, counterexample.  In a cache that holds an item reporting `maxInt`
bytes, `Put "k"` of an empty item and then `Put "k"` of an item reporting
`maxInt - 100` bytes both succeed and the second evicts nothing.  The stored
size is -9223372036854775756, not `152 + 1 + (maxInt - 100)`, and `currentSize`
is 266, not the total after the first `Put` minus 153 plus the stored size. -/
theorem replacement_total_wraps :
    run (New 0 0 0) replaceWrapDemoOps = some (stateAfter (New 0 0 0) replaceWrapDemoOps) ∧
    Put (stateAfter (New 0 0 0) [.put "big" ⟨1, 9223372036854775807⟩ (clockAt 1)])
        "k" ⟨2, 0⟩ (clockAt 2)
      = .ret (stateAfter (New 0 0 0) replaceWrapDemoOps) none ∧
    (stateAfter (New 0 0 0) replaceWrapDemoOps).currentSize = -9223372036854775441 ∧
    ∃ c2, Put (stateAfter (New 0 0 0) replaceWrapDemoOps)
          "k" ⟨3, 9223372036854775707⟩ (clockAt 3) = .ret c2 none ∧
      c2.theMap.map Prod.fst = ["k", "big"] ∧
      (entryOf c2 "k").map cacheEntry.size = some (-9223372036854775756) ∧
      152 + ("k".utf8ByteSize : Int) + (⟨3, 9223372036854775707⟩ : CacheItem).ByteSize
        = 9223372036854775860 ∧
      c2.currentSize = 266 ∧
      (stateAfter (New 0 0 0) replaceWrapDemoOps).currentSize - 153 + -9223372036854775756
        = -18446744073709551350 :=
  ⟨rfl, rfl, rfl, _, rfl, rfl, rfl, rfl, rfl, rfl⟩

/-- Claim C6, amended (replacement is delete-then-insert, in `int` arithmetic).
In a reachable state, if `Put key item1` and then `Put key item2` both succeed
and the second needs no capacity eviction (the total without the old entry
plus the new entry, in `int` arithmetic, is within the maximum), then the
index holds exactly one entry for `key`, its item is `item2` and its size is
the entry size `152 + len(key) + item2.ByteSize()` in `int` arithmetic, the
entry count is the one after the first `Put`, and `currentSize` is the total
after the first `Put` minus the size of `(key, item1)` plus the size of
`(key, item2)`, in `int` arithmetic; it is exactly that number when the number
lies between `minInt` and `maxInt`. -/
theorem replacement (c c1 c2 : LruCache) (key : String) (item1 item2 : CacheItem)
    (now1 now2 : Nat → Time) (hc : Reachable c)
    (h1 : Put c key item1 now1 = .ret c1 none)
    (h2 : Put c1 key item2 now2 = .ret c2 none)
    (hfit : wrapInt (c1.currentSize - wrapInt (152 + len key + item1.ByteSize)
        + wrapInt (152 + len key + item2.ByteSize)) ≤ c1.maxSize) :
    (c2.theMap.filter (fun p => decide (p.1 = key))).length = 1 ∧
    (∃ e, entryOf c2 key = some e ∧ e.item = item2 ∧
      e.size = wrapInt (152 + len key + item2.ByteSize)) ∧
    c2.theMap.length = c1.theMap.length ∧
    c2.currentSize = wrapInt (c1.currentSize - wrapInt (152 + len key + item1.ByteSize)
        + wrapInt (152 + len key + item2.ByteSize)) ∧
    (minInt ≤ c1.currentSize - wrapInt (152 + len key + item1.ByteSize)
        + wrapInt (152 + len key + item2.ByteSize) →
      c1.currentSize - wrapInt (152 + len key + item1.ByteSize)
        + wrapInt (152 + len key + item2.ByteSize) ≤ maxInt →
      c2.currentSize = c1.currentSize - wrapInt (152 + len key + item1.ByteSize)
        + wrapInt (152 + len key + item2.ByteSize)) := by
  have hi1 : Inv c1 :=
    (Put_preserves (fun _ => True) key item1 (fun _ _ _ _ _ _ _ _ => trivial)
      (fun _ _ _ _ _ _ => trivial) (Reachable_inv hc) trivial (by rw [h1]; rfl)).1
  -- the entry stored by the first call
  obtain ⟨e1, he1, hsz1⟩ : ∃ e1, entryOf c1 key = some e1 ∧
      e1.size = wrapInt (152 + len key + item1.ByteSize) := by
    obtain ⟨c0, t, _, hcase⟩ := Put_ret_spec h1
    rcases hcase with ⟨c3, t3, _, hc1, _⟩ | ⟨_, herr⟩
    · exact ⟨_, by rw [hc1]; exact entryOf_pushed _ _ _, newCacheEntry_size _ _ _⟩
    · simp at herr
  obtain ⟨el1, hg1, hv1⟩ := entryOf_eq_some he1
  -- the second call removes it and pushes the new entry at once
  obtain ⟨c0, t, hr, hcase⟩ := Put_ret_spec h2
  have hr0 : c0 = removed c1 el1 e1 (now2 0) ∧ t = 1 := by
    rcases replaceStep_spec hi1 key now2 with ⟨hg, _⟩ | ⟨el, e, hg, hv, _, _, hr1⟩
    · rw [hg] at hg1; simp at hg1
    · rw [hg] at hg1
      injection hg1 with hg1
      subst hg1
      rw [hv] at hv1
      injection hv1 with hv1
      subst hv1
      rw [hr1] at hr
      simp only [Option.some.injEq, Prod.mk.injEq] at hr
      exact ⟨hr.1.symm, hr.2.symm⟩
  obtain ⟨hc0, ht⟩ := hr0
  subst ht
  have hcur0 : wrapInt (c0.currentSize + (newCacheEntry key item2 (now2 1)).size)
      = wrapInt (c1.currentSize - wrapInt (152 + len key + item1.ByteSize)
        + wrapInt (152 + len key + item2.ByteSize)) := by
    rw [hc0, newCacheEntry_size]
    show wrapInt (wrapInt (c1.currentSize - e1.size) + _) = _
    rw [hsz1, wrapInt_add_left]
  have hfit0 : wrapInt (c0.currentSize + (newCacheEntry key item2 (now2 1)).size)
      ≤ c0.maxSize := by
    rw [hcur0, hc0]; exact hfit
  rw [evictLoop_fits_now _ _ _ _ _ hfit0] at hcase
  rcases hcase with ⟨c3, t3, he, hc2, _⟩ | ⟨he, _⟩
  · simp only [EvictResult.fits.injEq] at he
    rw [← he.1] at hc2
    have hmap : c2.theMap = (key, (⟨c0.nextElem, .entry (newCacheEntry key item2 (now2 1))⟩
        : Element)) :: mapDelete c1.theMap key := by
      rw [hc2]
      show mapSet c0.theMap key _ = _
      rw [hc0]
      show mapSet (mapDelete c1.theMap e1.key) key _ = _
      have hk : e1.key = key := by
        obtain ⟨_, e, hv, hk⟩ := hi1.mapSound key el1 (mapGet_mem hg1)
        rw [hv1] at hv
        injection hv with hv
        rw [hv]; exact hk
      rw [hk, mapSet, mapDelete_idem]
    have hcur2 : c2.currentSize
        = wrapInt (c1.currentSize - wrapInt (152 + len key + item1.ByteSize)
          + wrapInt (152 + len key + item2.ByteSize)) := by
      rw [hc2]
      exact hcur0
    refine ⟨?_, ⟨_, by rw [hc2]; exact entryOf_pushed _ _ _, rfl, newCacheEntry_size _ _ _⟩,
      ?_, hcur2, ?_⟩
    · rw [hmap, List.filter_cons_of_pos (by simp), filter_key_mapDelete]
      rfl
    · rw [hmap, List.length_cons]
      exact length_mapDelete hi1.keysNodup (mapGet_mem hg1)
    · intro hlo hhi
      rw [hcur2, wrapInt_of_range hlo hhi]
  · simp at he

/-- Claim C6 amended, instance: a 100 byte item replaced by a 40 byte item. -/
theorem replacement_witness :
    Reachable (New 0 0 0) ∧
    Put (New 0 0 0) "k" ⟨1, 100⟩ (clockAt 1)
      = .ret (stateAfter (New 0 0 0) [.put "k" ⟨1, 100⟩ (clockAt 1)]) none ∧
    Put (stateAfter (New 0 0 0) [.put "k" ⟨1, 100⟩ (clockAt 1)]) "k" ⟨2, 40⟩ (clockAt 2)
      = .ret (stateAfter (New 0 0 0)
          [.put "k" ⟨1, 100⟩ (clockAt 1), .put "k" ⟨2, 40⟩ (clockAt 2)]) none ∧
    (stateAfter (New 0 0 0)
      [.put "k" ⟨1, 100⟩ (clockAt 1), .put "k" ⟨2, 40⟩ (clockAt 2)]).currentSize
      = (stateAfter (New 0 0 0) [.put "k" ⟨1, 100⟩ (clockAt 1)]).currentSize
        - wrapInt (152 + len "k" + (⟨1, 100⟩ : CacheItem).ByteSize)
        + wrapInt (152 + len "k" + (⟨2, 40⟩ : CacheItem).ByteSize) :=
  have hr : Reachable (New 0 0 0) := ⟨0, 0, 0, [], rfl⟩
  ⟨hr, rfl, rfl,
    (replacement (New 0 0 0) _ _ "k" ⟨1, 100⟩ ⟨2, 40⟩ (clockAt 1) (clockAt 2) hr rfl rfl
      (by decide)).2.2.2.2 (by decide) (by decide)⟩

/-- Claim C7 (oversized item), the code at the failing input.  After `Put "a"`
and a `Get "a"` hit, the `Put` of an item whose `ByteSize` alone exceeds the
maximum does not return the capacity error: the eviction loop reaches the
pointer element left by `Get` and `remove` panics. -/
theorem oversized_put_panics_after_get_hit :
    run (New 0 0 0) oversizedDemoOps = some (stateAfter (New 0 0 0) oversizedDemoOps) ∧
    ((⟨2, 1000001⟩ : CacheItem).ByteSize > (stateAfter (New 0 0 0) oversizedDemoOps).maxSize) ∧
    (∃ c1, Put (stateAfter (New 0 0 0) oversizedDemoOps) "big" ⟨2, 1000001⟩ (clockAt 3)
      = .panic c1) :=
  ⟨rfl, by decide, _, rfl⟩

/-- Claim C8, counterexample.  In a new cache the `Put` of an entry whose
accounted size 999970 is not greater than the maximum 1000000 returns the
capacity error, because the base overhead 60 counts against the maximum. -/
theorem capacity_error_below_maximum :
    (newCacheEntry "k" ⟨1, 999817⟩ 1).size = 999970 ∧
    ¬ ((newCacheEntry "k" ⟨1, 999817⟩ 1).size > (New 0 0 0).maxSize) ∧
    Put (New 0 0 0) "k" ⟨1, 999817⟩ (clockAt 1) = .ret (New 0 0 0) (some ⟨999970⟩) :=
  ⟨rfl, by decide, rfl⟩

/-- Claim C8, amended (the capacity error is raised only for entries that do not
fit an empty cache).  In a reachable state, if `Put` returns an error then the
base overhead 60 plus the accounted size `152 + len(key) + item.ByteSize()` of
the new entry is strictly greater than the maximum; the error mentions that
size, and the cache is then empty with `currentSize` 60. -/
theorem capacity_error_only_if (c c1 : LruCache) (key : String) (item : CacheItem)
    (now : Nat → Time) (err : PutError) (hc : Reachable c)
    (h : Put c key item now = .ret c1 (some err)) :
    60 + (152 + len key + item.ByteSize) > c.maxSize ∧
    err.size = 152 + len key + item.ByteSize ∧
    c1.theMap = [] ∧ c1.theList = [] ∧ c1.currentSize = 60 := by
  have hfloor : (1000000 : Int) ≤ c.maxSize := by
    obtain ⟨maxSize, maxAge, t0, ops, hrun⟩ := hc
    rw [(run_config hrun).2.2]
    exact le_max_right _ _
  obtain ⟨c0, t, hr, hcase⟩ := Put_ret_spec h
  have h0 : Inv c0 ∧ c0.maxSize = c.maxSize := by
    refine ⟨(replaceStep_inv (Reachable_inv hc) hr).1, ?_⟩
    rcases replaceStep_spec (Reachable_inv hc) key now with ⟨_, hr1⟩ | ⟨el, e, _, _, _, _, hr1⟩ <;>
    · rw [hr1] at hr
      simp only [Option.some.injEq, Prod.mk.injEq] at hr
      rw [← hr.1]
      try rfl
  have hloop := evictLoop_rule (fun s => Inv s ∧ s.maxSize = c.maxSize)
    (newCacheEntry key item (now t)).size now
    (fun s el e t1 hs hb hv => ⟨Inv_removed hs.1 (Back_mem hb) hv t1, hs.2⟩)
    (c0.theList.length + 1) (t + 1) c0 h0
  rcases hcase with ⟨c2, t2, _, _, herr⟩ | ⟨he, herr⟩
  · simp at herr
  · obtain ⟨⟨hi1, hmax⟩, hnil, hgt⟩ := hloop.2.1 c1 he
    have hmap : c1.theMap = [] := by
      cases hm : c1.theMap with
      | nil => rfl
      | cons p rest =>
        obtain ⟨k, el⟩ := p
        have := (hi1.mapSound k el (by rw [hm]; exact List.mem_cons_self _ _)).1
        rw [hnil] at this
        simp at this
    have hcur : c1.currentSize = 60 := by
      rw [hi1.sizeEq, hmap]; rfl
    simp only [Option.some.injEq] at herr
    rw [hcur, hmax, newCacheEntry_size] at hgt
    have hlen := len_range key
    have hbs := ByteSize_range item
    have hsize : wrapInt (152 + len key + item.ByteSize) = 152 + len key + item.ByteSize ∧
        60 + (152 + len key + item.ByteSize) > c.maxSize := by
      unfold wrapInt at hgt ⊢
      unfold minInt maxInt at hlen hbs
      omega
    refine ⟨hsize.2, ?_, hmap, hnil, hcur⟩
    rw [herr, newCacheEntry_size]
    exact hsize.1

/-- Claim C8 amended, instance: a 2000000 byte item in a new cache. -/
theorem capacity_error_only_if_witness :
    Reachable (New 0 0 0) ∧
    Put (New 0 0 0) "key" ⟨1, 2000000⟩ (clockAt 1) = .ret (New 0 0 0) (some ⟨2000155⟩) ∧
    60 + (152 + len "key" + (⟨1, 2000000⟩ : CacheItem).ByteSize) > (New 0 0 0).maxSize :=
  have hr : Reachable (New 0 0 0) := ⟨0, 0, 0, [], rfl⟩
  ⟨hr, rfl,
    (capacity_error_only_if (New 0 0 0) (New 0 0 0) "key" ⟨1, 2000000⟩ (clockAt 1) ⟨2000155⟩
      hr rfl).1⟩

/-- The budget `Put` gives its eviction loop is never exhausted. -/
theorem Put_ne_outOfFuel (c : LruCache) (key : String) (item : CacheItem) (now : Nat → Time) :
    Put c key item now ≠ .outOfFuel := by
  rw [Put_unfold]
  cases hr : replaceStep c key now with
  | none => simp
  | some p =>
    obtain ⟨c0, t⟩ := p
    simp only
    have := evictLoop_fuel (newCacheEntry key item (now t)).size now
      (c0.theList.length + 1) (t + 1) c0 (Nat.lt_succ_self _)
    cases he : evictLoop (newCacheEntry key item (now t)).size now
        (c0.theList.length + 1) (t + 1) c0 with
    | outOfFuel => exact absurd he this
    | panic c2 => simp
    | full c2 => simp
    | fits c2 t2 => simp

/-- Claim C9, counterexample.  In a cache with maximum `maxInt` and maximum age
10, an item reporting `maxInt - 1000` bytes and an item of 1000 bytes are both
stored, which leaves `currentSize` at -9223372036854775443.  The `Get` that
expires the first entry, of size 9223372036854774960, leaves `currentSize` at
1213, not at the difference -18446744073709550403. -/
theorem expiry_total_wraps :
    run (New 9223372036854775807 10 0) expiryWrapDemoOps
      = some (stateAfter (New 9223372036854775807 10 0) expiryWrapDemoOps) ∧
    (stateAfter (New 9223372036854775807 10 0) expiryWrapDemoOps).theMap.map Prod.fst
      = ["b", "a"] ∧
    (entryOf (stateAfter (New 9223372036854775807 10 0) expiryWrapDemoOps) "a").map
      cacheEntry.size = some 9223372036854774960 ∧
    (stateAfter (New 9223372036854775807 10 0) expiryWrapDemoOps).currentSize
      = -9223372036854775443 ∧
    ∃ c1, Get (stateAfter (New 9223372036854775807 10 0) expiryWrapDemoOps) "a" (clockAt 100)
        = .ret c1 none ∧
      c1.currentSize = 1213 ∧
      (stateAfter (New 9223372036854775807 10 0) expiryWrapDemoOps).currentSize
        - 9223372036854774960 = -18446744073709550403 :=
  ⟨rfl, rfl, rfl, rfl, _, rfl, rfl, rfl⟩

/-- Claim C9, amended (lazy expiry on `Get`, in `int` arithmetic).  In a cache
created with `maxAge > 0`, for a present key whose entry has an age (first
clock reading of the `Get` minus `createTime`) strictly greater than `maxAge`,
`Get` reports not found, removes that entry from the key index (and its
element from the list), subtracts its size from `currentSize` in `int`
arithmetic (exactly, when the difference lies between `minInt` and `maxInt`)
and leaves every other entry in place; an entry whose age is at most `maxAge`
is returned with found = true. -/
theorem lazy_expiry (maxSize : Int) (maxAge : Duration) (t0 : Time) (ops : List Op)
    (c : LruCache) (key : String) (e : cacheEntry) (now : Nat → Time)
    (hrun : run (New maxSize maxAge t0) ops = some c) (hpos : maxAge > 0)
    (he : entryOf c key = some e) :
    (now 0 - e.createTime > maxAge →
      ∃ c1, Get c key now = .ret c1 none ∧
        mapGet c1.theMap key = none ∧
        c1.theMap.length + 1 = c.theMap.length ∧
        c1.currentSize = wrapInt (c.currentSize - e.size) ∧
        (minInt ≤ c.currentSize - e.size → c.currentSize - e.size ≤ maxInt →
          c1.currentSize = c.currentSize - e.size) ∧
        (∀ k, k ≠ key → mapGet c1.theMap k = mapGet c.theMap k) ∧
        (∀ x, x ∈ c1.theList ↔ x ∈ c.theList ∧ x.Value ≠ .entry e)) ∧
    (now 0 - e.createTime ≤ maxAge →
      ∃ c1, Get c key now = .ret c1 (some e.item) ∧ c1.theMap = c.theMap ∧
        c1.currentSize = c.currentSize) := by
  obtain ⟨hi, hage, _⟩ := run_config hrun
  obtain ⟨el, hg, hv⟩ := entryOf_eq_some he
  obtain ⟨hel, e1, hv1, hk1⟩ := hi.mapSound key el (mapGet_mem hg)
  have hk : e.key = key := by
    rw [hv] at hv1
    injection hv1 with hv1
    rw [hv1]; exact hk1
  constructor
  · intro hold
    have hx : hasExpired e c.maxAge (now 0) = true := by
      simp [hasExpired, hage, hpos, hold]
    refine ⟨removed c el e (now 1), ?_, ?_, ?_, rfl,
      fun hlo hhi => wrapInt_of_range hlo hhi, ?_, ?_⟩
    · rw [Get_unfold]
      simp only [hg, hv, hx, if_true, remove_entry c hv]
    · show mapGet (mapDelete c.theMap e.key) key = none
      rw [hk]; exact mapGet_mapDelete_self _ _
    · show (mapDelete c.theMap e.key).length + 1 = c.theMap.length
      rw [hk]; exact length_mapDelete hi.keysNodup (mapGet_mem hg)
    · intro k hne
      show mapGet (mapDelete c.theMap e.key) k = mapGet c.theMap k
      rw [hk]; exact mapGet_mapDelete_ne _ hne
    · intro x
      show x ∈ listRemove c.theList el ↔ _
      rw [mem_listRemove]
      constructor
      · rintro ⟨hx1, hid⟩
        refine ⟨hx1, fun hxv => hid ?_⟩
        have h1 := mapGet_of_mem hi.keysNodup (hi.listSound x e hx1 hxv)
        rw [hk, hg] at h1
        injection h1 with h1
        rw [h1]
      · rintro ⟨hx1, hxv⟩
        refine ⟨hx1, fun hid => hxv ?_⟩
        rw [eq_of_id_eq hi.idsNodup hx1 hel hid]; exact hv
  · intro hyoung
    have hx : hasExpired e c.maxAge (now 0) = false := by
      have : ¬ now 0 - e.createTime > maxAge := not_lt.2 hyoung
      simp [hasExpired, hage, this]
    refine ⟨touched c el, ?_, rfl, rfl⟩
    rw [Get_unfold]
    simp only [hg, hv, hx]
    rfl

/-- Claim C9 amended, instance: maximum age 10 ms, `Put` at time 0, `Get` 20 ms
later. -/
theorem lazy_expiry_witness :
    run (New 0 10000000 0) expiryDemoOps = some (stateAfter (New 0 10000000 0) expiryDemoOps) ∧
    (10000000 : Duration) > 0 ∧
    entryOf (stateAfter (New 0 10000000 0) expiryDemoOps) "k"
      = some ⟨⟨1, 100⟩, 0, "k", 253⟩ ∧
    (clockAt 20000000 0 - 0 > (10000000 : Duration)) ∧
    ∃ c1, Get (stateAfter (New 0 10000000 0) expiryDemoOps) "k" (clockAt 20000000)
        = .ret c1 none ∧ c1.currentSize = 60 :=
  have h := (lazy_expiry 0 10000000 0 expiryDemoOps (stateAfter (New 0 10000000 0) expiryDemoOps)
    "k" ⟨⟨1, 100⟩, 0, "k", 253⟩ (clockAt 20000000) rfl (by decide) rfl).1 (by decide)
  ⟨rfl, by decide, rfl, by decide, h.choose, h.choose_spec.1,
    h.choose_spec.2.2.2.1.trans (by decide)⟩

/-- Claim C10 (`maxAge` of zero disables expiry).  In a cache created with
`maxAge = 0`, for every present key and every clock reading `Get` returns the
stored item with found = true; no `Get` and no `Stats` that returns changes
the key index or `currentSize`, so entries leave the cache only inside `Put`. -/
theorem zero_maxAge_never_expires (maxSize : Int) (t0 : Time) (ops : List Op) (c : LruCache)
    (hrun : run (New maxSize 0 t0) ops = some c) :
    (∀ key e now, entryOf c key = some e →
      ∃ c1, Get c key now = .ret c1 (some e.item) ∧ c1.theMap = c.theMap ∧
        c1.currentSize = c.currentSize) ∧
    (∀ key now c1 r, Get c key now = .ret c1 r →
      c1.theMap = c.theMap ∧ c1.currentSize = c.currentSize ∧ c1.maxAge = 0) ∧
    (∀ now c1 st, Stats c now = .ret c1 st →
      c1.theMap = c.theMap ∧ c1.currentSize = c.currentSize ∧ c1.maxAge = 0) := by
  obtain ⟨hi, hage, _⟩ := run_config hrun
  have hx : ∀ e now, hasExpired e c.maxAge now = false := by
    intro e now
    simp [hasExpired, hage]
  refine ⟨?_, ?_, ?_⟩
  · intro key e now he
    obtain ⟨el, hg, hv⟩ := entryOf_eq_some he
    refine ⟨touched c el, ?_, rfl, rfl⟩
    rw [Get_unfold]
    simp only [hg, hv, hx]
    rfl
  · intro key now c1 r hget
    rcases Get_ret_spec hi hget with ⟨_, h1, _⟩ | ⟨el, e, _, _, _, _, ⟨h0, _, _⟩ | ⟨_, h1, _⟩⟩
    · rw [h1]; exact ⟨rfl, rfl, hage⟩
    · rw [hx] at h0; simp at h0
    · rw [h1]; exact ⟨rfl, rfl, hage⟩
  · intro now c1 st hst
    rw [(Stats_ret_spec hst).1]
    exact ⟨rfl, rfl, hage⟩

/-- Claim C10, instance: a read a very long time after the entry was stored. -/
theorem zero_maxAge_never_expires_witness :
    run (New 0 0 0) noExpiryDemoOps = some (stateAfter (New 0 0 0) noExpiryDemoOps) ∧
    ∃ c1, Get (stateAfter (New 0 0 0) noExpiryDemoOps) "k" (clockAt 1000000000000000)
        = .ret c1 (some ⟨1, 100⟩) ∧
      c1.theMap = (stateAfter (New 0 0 0) noExpiryDemoOps).theMap :=
  have h := (zero_maxAge_never_expires 0 0 noExpiryDemoOps
    (stateAfter (New 0 0 0) noExpiryDemoOps) rfl).1 "k" ⟨⟨1, 100⟩, 0, "k", 253⟩
    (clockAt 1000000000000000) rfl
  ⟨rfl, h.choose, h.choose_spec.1, h.choose_spec.2.1⟩

theorem pushed_currentSize (c : LruCache) (key : String) (e : cacheEntry) :
    (pushed c key e).currentSize = wrapInt (c.currentSize + e.size) := rfl

/-- The configured maximum is the same in every state of the eviction loop. -/
theorem evictLoop_maxSize (newSize : Int) (now : Nat → Time) (fuel t : Nat) (c : LruCache) :
    (∀ c1 t1, evictLoop newSize now fuel t c = .fits c1 t1 →
        c1.maxSize = c.maxSize ∧ wrapInt (c1.currentSize + newSize) ≤ c.maxSize) ∧
    (∀ c1, evictLoop newSize now fuel t c = .full c1 → c1.maxSize = c.maxSize) := by
  have h := evictLoop_rule (fun s => s.maxSize = c.maxSize) newSize now
    (fun s el e t1 hs _ _ => hs) fuel t c rfl
  refine ⟨fun c1 t1 he => ?_, fun c1 he => (h.2.1 c1 he).1⟩
  obtain ⟨h1, h2⟩ := h.1 c1 t1 he
  exact ⟨h1, by rw [← h1]; exact h2⟩

theorem replaceStep_maxSize {c c0 : LruCache} {key : String} {now : Nat → Time} {t : Nat}
    (hc : Inv c) (h : replaceStep c key now = some (c0, t)) : c0.maxSize = c.maxSize := by
  rcases replaceStep_spec hc key now with ⟨_, hr1⟩ | ⟨el, e, _, _, _, _, hr1⟩ <;>
  · rw [hr1] at h
    simp only [Option.some.injEq, Prod.mk.injEq] at h
    rw [← h.1]
    try rfl

/-- Claim C11 (floor enforcement).  `New maxSize maxAge` yields an empty cache
with `currentSize` 60 whose maximum is `max maxSize 1000000`, for every integer
`maxSize`.  In every state reached from it the maximum is still that value (the
floor 1000000 when the requested maximum is at or below it), and it is the
value `Put` decides against: the new entry is stored without any eviction
exactly when the total after the replacement step plus the entry size, the sum
the loop computes in 64-bit `int` arithmetic, is at most
`max maxSize 1000000`, and a successful `Put` leaves a total within it. -/
theorem floor_enforcement (maxSize : Int) (maxAge : Duration) (t0 : Time) (ops : List Op)
    (c : LruCache) (hrun : run (New maxSize maxAge t0) ops = some c) :
    ((New maxSize maxAge t0).theMap = [] ∧ (New maxSize maxAge t0).theList = [] ∧
      (New maxSize maxAge t0).currentSize = 60 ∧
      (New maxSize maxAge t0).maxSize = max maxSize 1000000) ∧
    c.maxSize = max maxSize 1000000 ∧
    (maxSize ≤ 1000000 → c.maxSize = 1000000) ∧
    (∀ key item now c0 t, replaceStep c key now = some (c0, t) →
      (Put c key item now = .ret (pushed c0 key (newCacheEntry key item (now t))) none ↔
        wrapInt (c0.currentSize + (newCacheEntry key item (now t)).size)
          ≤ max maxSize 1000000)) ∧
    (∀ key item now c1, Put c key item now = .ret c1 none →
      c1.currentSize ≤ max maxSize 1000000) := by
  obtain ⟨hi, _, hmax⟩ := run_config hrun
  have hnew : (New maxSize maxAge t0).maxSize = max maxSize 1000000 :=
    (run_config (show run (New maxSize maxAge t0) [] = some _ from rfl)).2.2
  refine ⟨⟨rfl, rfl, rfl, hnew⟩, hmax, fun hle => by rw [hmax, max_eq_right hle], ?_, ?_⟩
  · intro key item now c0 t hr
    have h0 : c0.maxSize = max maxSize 1000000 := by rw [replaceStep_maxSize hi hr, hmax]
    constructor
    · intro hput
      obtain ⟨c0', t', hr', hcase⟩ := Put_ret_spec hput
      rw [hr] at hr'
      simp only [Option.some.injEq, Prod.mk.injEq] at hr'
      obtain ⟨hc0, ht⟩ := hr'
      subst hc0; subst ht
      rcases hcase with ⟨c2, t2, he, hc1, _⟩ | ⟨_, herr⟩
      · obtain ⟨_, hfit⟩ := (evictLoop_maxSize _ now _ _ c0).1 c2 t2 he
        have hcur : (pushed c0 key (newCacheEntry key item (now t))).currentSize
            = (pushed c2 key (newCacheEntry key item (now t))).currentSize := by rw [hc1]
        rw [pushed_currentSize, pushed_currentSize] at hcur
        rw [← h0, hcur]
        exact hfit
      · simp at herr
    · intro hfit
      rw [← h0] at hfit
      rw [Put_unfold]
      simp only [hr, evictLoop_fits_now _ _ _ _ _ hfit]
  · intro key item now c1 hput
    obtain ⟨c0, t, hr, hcase⟩ := Put_ret_spec hput
    have h0 : c0.maxSize = max maxSize 1000000 := by rw [replaceStep_maxSize hi hr, hmax]
    rcases hcase with ⟨c2, t2, he, hc1, _⟩ | ⟨_, herr⟩
    · obtain ⟨_, hfit⟩ := (evictLoop_maxSize _ now _ _ c0).1 c2 t2 he
      rw [hc1, pushed_currentSize, ← h0]
      exact hfit
    · simp at herr

/-- Claim C11, instance: a requested maximum of -5 and a 999700 byte item, which
is stored under the floor 1000000 without eviction. -/
theorem floor_enforcement_witness :
    run (New (-5) 0 0) [] = some (New (-5) 0 0) ∧
    (New (-5) 0 0).maxSize = 1000000 ∧
    Put (New (-5) 0 0) "k" ⟨1, 999700⟩ (clockAt 1)
      = .ret (pushed (New (-5) 0 0) "k" (newCacheEntry "k" ⟨1, 999700⟩ 1)) none :=
  have h := floor_enforcement (-5) 0 0 [] (New (-5) 0 0) rfl
  ⟨rfl, h.2.2.1 (by decide),
    (h.2.2.2.1 "k" ⟨1, 999700⟩ (clockAt 1) (New (-5) 0 0) 0 rfl).2 (by decide)⟩

/-- Claim C12 (Stats is a draining read).  In every state (reachable ones in
particular), two `Stats` calls in a row both return; the second returns an empty
`TimeToEviction` list, the same `ByteSize` and `ItemCount` as the first and a
`StatDuration` equal to the difference of the two clock readings; neither call
changes the index, the list or `currentSize`. -/
theorem stats_drains (c : LruCache) (now1 now2 : Time) :
    ∃ c1 s1 c2 s2, Stats c now1 = .ret c1 s1 ∧ Stats c1 now2 = .ret c2 s2 ∧
      s1.TimeToEviction = c.timesToEviction ∧
      s2.TimeToEviction = [] ∧ s2.ByteSize = s1.ByteSize ∧ s2.ItemCount = s1.ItemCount ∧
      s2.StatDuration = now2 - now1 ∧
      c1.theMap = c.theMap ∧ c1.theList = c.theList ∧ c1.currentSize = c.currentSize ∧
      c2.theMap = c.theMap ∧ c2.theList = c.theList ∧ c2.currentSize = c.currentSize :=
  ⟨_, _, _, _, rfl, rfl, rfl, rfl, rfl, rfl, rfl, rfl, rfl, rfl, rfl, rfl, rfl⟩

/-- Claim C15, counterexample.  For the one byte key `"k"` and an item reporting
`ByteSize` 9223372036854775807 the sum `152 + len(key) + item.ByteSize()` is
9223372036854775960, but `newCacheEntry` computes it in 64-bit `int` arithmetic
and the entry has size -9223372036854775656.  `Put` stores that entry in a new
cache and leaves `currentSize` at -9223372036854775596. -/
theorem additive_cost_wraps :
    len "k" = 1 ∧ (⟨1, 9223372036854775807⟩ : CacheItem).ByteSize = 9223372036854775807 ∧
    (newCacheEntry "k" ⟨1, 9223372036854775807⟩ 1).size = -9223372036854775656 ∧
    (newCacheEntry "k" ⟨1, 9223372036854775807⟩ 1).size
      ≠ 152 + len "k" + (⟨1, 9223372036854775807⟩ : CacheItem).ByteSize ∧
    Put (New 0 0 0) "k" ⟨1, 9223372036854775807⟩ (clockAt 1)
      = .ret (stateAfter (New 0 0 0) [.put "k" ⟨1, 9223372036854775807⟩ (clockAt 1)]) none ∧
    entryOf (stateAfter (New 0 0 0) [.put "k" ⟨1, 9223372036854775807⟩ (clockAt 1)]) "k"
      = some ⟨⟨1, 9223372036854775807⟩, 1, "k", -9223372036854775656⟩ ∧
    (stateAfter (New 0 0 0) [.put "k" ⟨1, 9223372036854775807⟩ (clockAt 1)]).currentSize
      = -9223372036854775596 :=
  ⟨rfl, rfl, rfl, by decide, rfl, rfl, rfl⟩

/-- Claim C15 (additive cost function), amended.  The entry built by
`newCacheEntry` has the size `88 + len(key) + item.ByteSize() + 64`, that is
`152 + len(key) + item.ByteSize()`, computed in 64-bit `int` arithmetic,
whatever the clock reading; it is exactly that sum when the sum is at most the
largest `int`.  A successful `Put` stores an entry with that size, adds that
amount to the total the eviction loop ended with, and `remove`, in whatever
state it is later called on the stored element, subtracts that amount, both in
`int` arithmetic and exactly when the result is an `int`. -/
theorem additive_cost (c c1 : LruCache) (key : String) (item : CacheItem) (now : Nat → Time)
    (hput : Put c key item now = .ret c1 none) :
    mapEntrySize = 64 ∧
    (∀ t, (newCacheEntry key item t).size = wrapInt (88 + len key + item.ByteSize + 64) ∧
      (newCacheEntry key item t).size = wrapInt (152 + len key + item.ByteSize) ∧
      (152 + len key + item.ByteSize ≤ maxInt →
        (newCacheEntry key item t).size = 152 + len key + item.ByteSize)) ∧
    ∃ c0 t c2 t2 el e, replaceStep c key now = some (c0, t) ∧
      evictLoop (wrapInt (152 + len key + item.ByteSize)) now
        (c0.theList.length + 1) (t + 1) c0 = .fits c2 t2 ∧
      c1.currentSize = wrapInt (c2.currentSize + wrapInt (152 + len key + item.ByteSize)) ∧
      (minInt ≤ c2.currentSize + wrapInt (152 + len key + item.ByteSize) →
        c2.currentSize + wrapInt (152 + len key + item.ByteSize) ≤ maxInt →
        c1.currentSize = c2.currentSize + wrapInt (152 + len key + item.ByteSize)) ∧
      mapGet c1.theMap key = some el ∧ el.Value = .entry e ∧ e.item = item ∧
      e.size = wrapInt (152 + len key + item.ByteSize) ∧
      ∀ s t1, ∃ s1, remove s (some el) t1 = some (s1, true) ∧
        s1.currentSize = wrapInt (s.currentSize - wrapInt (152 + len key + item.ByteSize)) ∧
        (minInt ≤ s.currentSize - wrapInt (152 + len key + item.ByteSize) →
          s.currentSize - wrapInt (152 + len key + item.ByteSize) ≤ maxInt →
          s1.currentSize = s.currentSize - wrapInt (152 + len key + item.ByteSize)) := by
  refine ⟨rfl, fun t => ⟨?_, newCacheEntry_size key item t, fun h => ?_⟩, ?_⟩
  · rw [newCacheEntry_size]
    congr 1
    ring
  · rw [newCacheEntry_size]
    have h1 := len_range key
    have h2 := ByteSize_range item
    exact wrapInt_of_range (by unfold minInt at *; omega) h
  · obtain ⟨c0, t, hr, hcase⟩ := Put_ret_spec hput
    rcases hcase with ⟨c2, t2, he, hc1, _⟩ | ⟨_, herr⟩
    · rw [newCacheEntry_size] at he
      have hcur : c1.currentSize
          = wrapInt (c2.currentSize + wrapInt (152 + len key + item.ByteSize)) := by
        rw [hc1, pushed_currentSize, newCacheEntry_size]
      refine ⟨c0, t, c2, t2, ⟨c2.nextElem, .entry (newCacheEntry key item (now t))⟩,
        newCacheEntry key item (now t), hr, he, hcur,
        fun h1 h2 => hcur.trans (wrapInt_of_range h1 h2), ?_, rfl, rfl,
        newCacheEntry_size _ _ _, ?_⟩
      · rw [hc1]; exact mapGet_mapSet_self _ _ _
      · intro s t1
        have hs : (removed s ⟨c2.nextElem, .entry (newCacheEntry key item (now t))⟩
            (newCacheEntry key item (now t)) t1).currentSize
            = wrapInt (s.currentSize - wrapInt (152 + len key + item.ByteSize)) := by
          show wrapInt (s.currentSize - (newCacheEntry key item (now t)).size) = _
          rw [newCacheEntry_size]
        exact ⟨_, remove_entry s rfl t1, hs, fun h1 h2 => hs.trans (wrapInt_of_range h1 h2)⟩
    · simp at herr

/-- Claim C15, instance: a 100 byte item under a 3 byte key costs 255. -/
theorem additive_cost_witness :
    Put (New 0 0 0) "key" ⟨1, 100⟩ (clockAt 1)
      = .ret (stateAfter (New 0 0 0) [.put "key" ⟨1, 100⟩ (clockAt 1)]) none ∧
    (newCacheEntry "key" ⟨1, 100⟩ 1).size = 255 ∧
    (stateAfter (New 0 0 0) [.put "key" ⟨1, 100⟩ (clockAt 1)]).currentSize = 60 + 255 :=
  ⟨rfl,
    ((additive_cost (New 0 0 0) _ "key" ⟨1, 100⟩ (clockAt 1) rfl).2.1 1).2.2 (by decide),
    rfl⟩

/-- Claim C17 (index and recency sequence in one-to-one correspondence), the
code at the failing input.  After `Put "a"` and two `Get "a"` hits the index
holds one key but the list holds three elements, two of which hold a pointer
and no entry: every `Get` hit lengthens the list by one. -/
theorem get_hit_lengthens_list :
    run (New 0 0 0) correspondenceDemoOps
      = some (stateAfter (New 0 0 0) correspondenceDemoOps) ∧
    (stateAfter (New 0 0 0) correspondenceDemoOps).theMap.length = 1 ∧
    (stateAfter (New 0 0 0) correspondenceDemoOps).theList.length = 3 ∧
    (stateAfter (New 0 0 0) correspondenceDemoOps).theList.map Element.Value =
      [.elemPtr 0, .elemPtr 0, .entry ⟨⟨1, 10⟩, 1, "a", 163⟩] :=
  ⟨rfl, rfl, rfl, rfl⟩

/-- Claim C18 (Get changes no accounting unless it expires the entry).  In every
state (reachable ones in particular), a `Get` of an absent key returns
`(nil, false)` and leaves the whole state unchanged, and a `Get` that hits an
entry that has not expired returns its item and leaves the index (hence the
set of keys and every entry with its item and size), `currentSize`, the latency
samples, `lastStat` and the configuration unchanged. -/
theorem get_frame (c : LruCache) (key : String) (now : Nat → Time) :
    (mapGet c.theMap key = none → Get c key now = .ret c none) ∧
    (∀ e, entryOf c key = some e → hasExpired e c.maxAge (now 0) = false →
      ∃ c1, Get c key now = .ret c1 (some e.item) ∧
        c1.theMap = c.theMap ∧ (∀ k, entryOf c1 k = entryOf c k) ∧
        c1.currentSize = c.currentSize ∧ c1.timesToEviction = c.timesToEviction ∧
        c1.lastStat = c.lastStat ∧ c1.maxSize = c.maxSize ∧ c1.maxAge = c.maxAge) := by
  constructor
  · intro hg
    rw [Get_unfold]
    simp only [hg]
  · intro e he hx
    obtain ⟨el, hg, hv⟩ := entryOf_eq_some he
    refine ⟨touched c el, ?_, rfl, fun k => rfl, rfl, rfl, rfl, rfl, rfl⟩
    rw [Get_unfold]
    simp only [hg, hv, hx]
    rfl

/-- Claim C18, instance: a miss and a hit in a cache holding one entry. -/
theorem get_frame_witness :
    Get (stateAfter (New 0 0 0) noExpiryDemoOps) "other" (clockAt 7)
      = .ret (stateAfter (New 0 0 0) noExpiryDemoOps) none ∧
    ∃ c1, Get (stateAfter (New 0 0 0) noExpiryDemoOps) "k" (clockAt 7)
        = .ret c1 (some ⟨1, 100⟩) ∧
      c1.currentSize = (stateAfter (New 0 0 0) noExpiryDemoOps).currentSize :=
  have h := get_frame (stateAfter (New 0 0 0) noExpiryDemoOps)
  have h2 := (h "k" (clockAt 7)).2 ⟨⟨1, 100⟩, 0, "k", 253⟩ rfl rfl
  ⟨(h "other" (clockAt 7)).1 rfl, h2.choose, h2.choose_spec.1, h2.choose_spec.2.2.2.1⟩

theorem removed_samples (c : LruCache) (el : Element) (e : cacheEntry) (t : Time) :
    (removed c el e t).timesToEviction = record c.timesToEviction (t - e.createTime) := rfl

theorem recordAll_cons (s : List Duration) (d : Duration) (ds : List Duration) :
    recordAll s (d :: ds) = recordAll (record s d) ds := rfl

theorem recordAll_append (s ds1 ds2 : List Duration) :
    recordAll s (ds1 ++ ds2) = recordAll (recordAll s ds1) ds2 := by
  simp [recordAll, List.foldl_append]

theorem recordAll_eq_append (ds : List Duration) :
    ∀ s : List Duration, s.length + ds.length ≤ maxStatHistory + 1 → recordAll s ds = s ++ ds := by
  induction ds with
  | nil => intro s _; simp [recordAll]
  | cons d ds ih =>
    intro s hlen
    simp only [List.length_cons] at hlen
    have h1 : s.length ≤ maxStatHistory := by omega
    rw [recordAll_cons]
    have h2 : record s d = s ++ [d] := by simp [record, h1]
    rw [h2, ih (s ++ [d]) (by simp only [List.length_append, List.length_singleton]; omega)]
    simp

/-- The samples after the eviction loop, whatever its outcome. -/
theorem evictLoop_samples (newSize : Int) (now : Nat → Time) :
    ∀ (fuel t : Nat) (c : LruCache),
      (∀ c1 t1, evictLoop newSize now fuel t c = .fits c1 t1 →
        c1.timesToEviction = recordAll c.timesToEviction (evictLog newSize now fuel t c)) ∧
      (∀ c1, evictLoop newSize now fuel t c = .full c1 →
        c1.timesToEviction = recordAll c.timesToEviction (evictLog newSize now fuel t c)) ∧
      (∀ c1, evictLoop newSize now fuel t c = .panic c1 →
        c1.timesToEviction = recordAll c.timesToEviction (evictLog newSize now fuel t c)) := by
  intro fuel
  induction fuel with
  | zero => intro t c; simp [evictLoop]
  | succ n ih =>
    intro t c
    simp only [evictLoop, evictLog]
    by_cases hgt : wrapInt (c.currentSize + newSize) > c.maxSize
    · simp only [hgt, if_true]
      cases hb : Back c.theList with
      | none =>
        simp only [remove_nil]
        refine ⟨fun c1 t1 h => by simp at h, fun c1 h => ?_, fun c1 h => by simp at h⟩
        simp only [EvictResult.full.injEq] at h
        subst h
        rfl
      | some el =>
        cases hv : el.Value with
        | elemPtr i =>
          simp only [remove_ptr c hv, hv]
          refine ⟨fun c1 t1 h => by simp at h, fun c1 h => by simp at h, fun c1 h => ?_⟩
          simp only [EvictResult.panic.injEq] at h
          subst h
          rfl
        | entry e =>
          simp only [remove_entry c hv, hv, recordAll_cons, ← removed_samples c el e (now t)]
          exact ih (t + 1) (removed c el e (now t))
    · simp only [hgt, if_false]
      refine ⟨fun c1 t1 h => ?_, fun c1 h => by simp at h, fun c1 h => by simp at h⟩
      simp only [EvictResult.fits.injEq] at h
      rw [← h.1]
      rfl

theorem pushed_samples (c : LruCache) (key : String) (e : cacheEntry) :
    (pushed c key e).timesToEviction = c.timesToEviction := rfl

/-- The samples after a `Put`, whatever its outcome. -/
theorem Put_samples {c c1 : LruCache} {key : String} {item : CacheItem} {now : Nat → Time}
    (h : (Put c key item now).state = some c1) :
    c1.timesToEviction = recordAll c.timesToEviction (putLog c key item now) := by
  rw [Put_unfold] at h
  unfold putLog replaceStep at *
  cases hg : mapGet c.theMap key with
  | none =>
    simp only [hg] at h ⊢
    have hl := evictLoop_samples (newCacheEntry key item (now 0)).size now
      (c.theList.length + 1) 1 c
    cases he : evictLoop (newCacheEntry key item (now 0)).size now
        (c.theList.length + 1) (0 + 1) c with
    | outOfFuel => simp [he, Result.state] at h
    | panic c2 =>
      simp only [he, Result.state, Option.some.injEq] at h
      rw [← h]; exact hl.2.2 c2 he
    | full c2 =>
      simp only [he, Result.state, Option.some.injEq] at h
      rw [← h]; exact hl.2.1 c2 he
    | fits c2 t2 =>
      simp only [he, Result.state, Option.some.injEq] at h
      rw [← h, pushed_samples]; exact hl.1 c2 t2 he
  | some el =>
    simp only [hg] at h ⊢
    cases hv : el.Value with
    | elemPtr i =>
      simp only [remove_ptr c hv, Result.state, Option.some.injEq] at h
      rw [← h]; rfl
    | entry e =>
      simp only [remove_entry c hv] at h
      simp only [recordAll_cons, ← removed_samples c el e (now 0)]
      have hl := evictLoop_samples (newCacheEntry key item (now 1)).size now
        ((removed c el e (now 0)).theList.length + 1) 2 (removed c el e (now 0))
      cases he : evictLoop (newCacheEntry key item (now 1)).size now
          ((removed c el e (now 0)).theList.length + 1) (1 + 1) (removed c el e (now 0)) with
      | outOfFuel => simp [he, Result.state] at h
      | panic c2 =>
        simp only [he, Result.state, Option.some.injEq] at h
        rw [← h]; exact hl.2.2 c2 he
      | full c2 =>
        simp only [he, Result.state, Option.some.injEq] at h
        rw [← h]; exact hl.2.1 c2 he
      | fits c2 t2 =>
        simp only [he, Result.state, Option.some.injEq] at h
        rw [← h, pushed_samples]; exact hl.1 c2 t2 he

/-- The samples after a `Get`, whatever its outcome. -/
theorem Get_samples {c c1 : LruCache} {key : String} {now : Nat → Time}
    (h : (Get c key now).state = some c1) :
    c1.timesToEviction = recordAll c.timesToEviction (getLog c key now) := by
  rw [Get_unfold] at h
  unfold getLog entryOf
  cases hg : mapGet c.theMap key with
  | none =>
    simp only [hg, Result.state, Option.some.injEq] at h ⊢
    rw [← h]; rfl
  | some el =>
    simp only [hg] at h ⊢
    cases hv : el.Value with
    | elemPtr i =>
      simp only [hv, Result.state, Option.some.injEq] at h
      rw [← h]; rfl
    | entry e =>
      simp only [hv] at h
      cases hx : hasExpired e c.maxAge (now 0) with
      | true =>
        simp only [hx, if_true, remove_entry c hv, Result.state, Option.some.injEq] at h
        simp only [hx, if_true]
        rw [← h]; rfl
      | false =>
        simp only [hx, Result.state] at h
        simp at h
        simp only [hx, Bool.false_eq_true, if_false]
        rw [← h]; rfl

/-- The samples after a sequence of `Put` and `Get` calls. -/
theorem run_samples : ∀ (ops : List Op) (c c1 : LruCache),
    (∀ op ∈ ops, op.isStats = false) → run c ops = some c1 →
    c1.timesToEviction = recordAll c.timesToEviction (runLog c ops) := by
  intro ops
  induction ops with
  | nil =>
    intro c c1 _ h
    simp only [run, Option.some.injEq] at h
    rw [← h]; rfl
  | cons op ops ih =>
    intro c c1 hops h
    simp only [run] at h
    cases hs : step c op with
    | none => simp [hs] at h
    | some c2 =>
      simp only [hs] at h
      have h2 : c2.timesToEviction = recordAll c.timesToEviction (opLog c op) := by
        cases op with
        | put key item now => exact Put_samples hs
        | get key now => exact Get_samples hs
        | stats now =>
          have := hops (.stats now) (List.mem_cons_self _ _)
          simp [Op.isStats] at this
      simp only [runLog, hs, recordAll_append, ← h2]
      exact ih c2 c1 (fun o ho => hops o (List.mem_cons_of_mem _ ho)) h

theorem capDemo_put (n : Nat) (samples : List Duration) :
    Put (capDemoState n samples) "k" ⟨1, 10⟩ (clockAt 0)
      = .ret (capDemoState (n + 1) (record samples 0)) none := by
  have h1 : replaceStep (capDemoState n samples) "k" (clockAt 0)
      = some ({ theMap := [], theList := [], nextElem := n + 1, maxSize := 1000000,
                currentSize := 60, maxAge := 0, timesToEviction := record samples 0,
                lastStat := 0 }, 1) := by
    simp [replaceStep, mapGet, remove, capDemoState, mapDelete, listRemove, record, clockAt,
      wrapInt]
  rw [Put_unfold, h1]
  simp only
  rw [evictLoop_fits_now _ _ _ _ _
    (show wrapInt ((60 : Int) + (newCacheEntry "k" ⟨1, 10⟩ 0).size) ≤ 1000000 by decide)]
  rfl

/-- Storing the same key again and again records one sample per replacement. -/
theorem capDemo_run (m : Nat) : ∀ (n : Nat) (samples : List Duration),
    run (capDemoState n samples) (List.replicate m (.put "k" ⟨1, 10⟩ (clockAt 0)))
      = some (capDemoState (n + m) (recordAll samples (List.replicate m 0))) := by
  induction m with
  | zero => intro n samples; rfl
  | succ m ih =>
    intro n samples
    rw [List.replicate_succ, List.replicate_succ, recordAll_cons]
    simp only [run, step, capDemo_put, Result.state]
    rw [ih (n + 1) (record samples 0)]
    congr 2
    omega

/-- The sample list never holds more than `maxStatHistory + 1` samples. -/
theorem samples_length_le (maxSize : Int) (maxAge : Duration) (t0 : Time) (ops : List Op)
    (c : LruCache) (h : run (New maxSize maxAge t0) ops = some c) :
    c.timesToEviction.length ≤ maxStatHistory + 1 := by
  refine (run_preserves (fun _ _ => True) (fun s => s.timesToEviction.length ≤ maxStatHistory + 1)
    ?_ (fun _ _ _ _ _ _ hq _ _ => hq) (fun _ _ _ hq => hq) (fun _ _ _ _ => Nat.zero_le _)
    ops _ c (fun op _ => by cases op <;> trivial) (Inv_New maxSize maxAge t0)
    (Nat.zero_le _) h).2
  intro s el e t _ hq _ _
  rw [removed_samples]
  unfold record
  split
  · simp only [List.length_append, List.length_singleton]; omega
  · exact hq

theorem capDemo_from_New (m : Nat) :
    run (New 0 0 0) (List.replicate (m + 1) (.put "k" ⟨1, 10⟩ (clockAt 0)))
      = some (capDemoState m (recordAll [] (List.replicate m 0))) := by
  have hput : Put (New 0 0 0) "k" ⟨1, 10⟩ (clockAt 0) = .ret (capDemoState 0 []) none := rfl
  rw [List.replicate_succ]
  simp only [run, step, hput, Result.state]
  rw [capDemo_run m 0 [], Nat.zero_add]

theorem capDemo_samples_length (m : Nat) (h : m ≤ maxStatHistory + 1) :
    (recordAll [] (List.replicate m (0 : Duration))).length = m := by
  rw [recordAll_eq_append _ _ (by simpa using h)]
  simp

/-- Claim C14 (cap of the latency history), the code at the failing input.
After the same key is stored 1002 times in a new cache, which replaces the
entry 1001 times, the cache holds 1001 samples and `Stats` returns all of them,
one more than `maxStatHistory = 1000`: `remove` appends while the length is at
most `maxStatHistory`, not while it is below it. -/
theorem history_exceeds_cap :
    maxStatHistory = 1000 ∧
    ∃ c, run (New 0 0 0) capDemoOps = some c ∧ c.timesToEviction.length = 1001 ∧
      ∃ c1 st, Stats c 0 = .ret c1 st ∧ st.TimeToEviction.length = 1001 := by
  obtain ⟨samples, hrun, hlen⟩ : ∃ samples : List Duration,
      run (New 0 0 0) capDemoOps = some (capDemoState 1001 samples) ∧ samples.length = 1001 :=
    ⟨_, capDemo_from_New 1001, capDemo_samples_length 1001 (Nat.le_of_eq rfl)⟩
  exact ⟨rfl, capDemoState 1001 samples, hrun, hlen, _, _, rfl, hlen⟩

/-- Claim C13 (every removal records one latency sample).  Start in a state
without samples (a new cache, or the state a `Stats` call leaves) and make any
sequence of `Put` and `Get` calls.  If the removals of that sequence
(replacements and capacity evictions in `Put`, expiries in `Get`) number at
most 1000, the next `Stats` call returns exactly their latencies in removal
order, each the clock reading at the removal minus the `createTime` of the
removed entry, together with `ByteSize = currentSize` and `ItemCount` the
number of indexed keys. -/
theorem removal_samples (c0 c : LruCache) (ops : List Op) (now : Time)
    (h0 : c0.timesToEviction = []) (hops : ∀ op ∈ ops, op.isStats = false)
    (hrun : run c0 ops = some c) (hn : (runLog c0 ops).length ≤ 1000) :
    ∃ c1, Stats c now = .ret c1
      { TimeToEviction := runLog c0 ops
        ByteSize := c.currentSize
        ItemCount := c.theMap.length
        StatDuration := now - c.lastStat } := by
  have hs : c.timesToEviction = runLog c0 ops := by
    rw [run_samples ops c0 c hops hrun, h0, recordAll_eq_append]
    · rfl
    · simp only [List.length_nil, maxStatHistory]; omega
  exact ⟨_, by rw [← hs]; rfl⟩

/-- Claim C13, instance: maximum age 10; a replacement at time 1, an expiry
read at time 20 and a capacity eviction at time 40 give the samples 1, 19, 10. -/
theorem removal_samples_witness :
    (New 0 10 0).timesToEviction = [] ∧
    (∀ op ∈ samplesDemoOps, op.isStats = false) ∧
    run (New 0 10 0) samplesDemoOps = some (stateAfter (New 0 10 0) samplesDemoOps) ∧
    runLog (New 0 10 0) samplesDemoOps = [1, 19, 10] ∧
    ∃ c1, Stats (stateAfter (New 0 10 0) samplesDemoOps) 50 = .ret c1
      { TimeToEviction := [1, 19, 10], ByteSize := 600213, ItemCount := 1, StatDuration := 50 } :=
  have hops : ∀ op ∈ samplesDemoOps, op.isStats = false := by
    simp [samplesDemoOps, Op.isStats]
  ⟨rfl, hops, rfl, rfl,
    removal_samples (New 0 10 0) (stateAfter (New 0 10 0) samplesDemoOps) samplesDemoOps 50
      rfl hops rfl (by decide)⟩

theorem sizeSum_append (l1 l2 : List Element) : sizeSum (l1 ++ l2) = sizeSum l1 + sizeSum l2 := by
  simp [sizeSum]

theorem sizeSum_singleton (el : Element) : sizeSum [el] = entrySize el := by
  simp [sizeSum]

theorem listRemove_concat {init : List Element} {el : Element}
    (hnd : ((init ++ [el]).map Element.id).Nodup) : listRemove (init ++ [el]) el = init := by
  unfold listRemove
  rw [List.filter_append]
  have h1 : List.filter (fun x => decide (x.id ≠ el.id)) [el] = [] := by simp
  rw [h1, List.append_nil, List.filter_eq_self]
  intro x hx
  simp only [ne_eq, decide_not, Bool.not_eq_true', decide_eq_false_iff_not]
  intro hid
  rw [List.map_append, List.nodup_append] at hnd
  exact hnd.2.2 (List.mem_map_of_mem Element.id hx) (by simp [hid])

theorem removed_theList (c : LruCache) (el : Element) (e : cacheEntry) (t : Time) :
    (removed c el e t).theList = listRemove c.theList el := rfl

theorem removed_currentSize (c : LruCache) (el : Element) (e : cacheEntry) (t : Time) :
    (removed c el e t).currentSize = wrapInt (c.currentSize - e.size) := rfl

/-- On a list that holds entries only, a successful eviction loop removes the
shortest run of elements at the back of the list after which the new entry
fits; every sum is the one the code computes in `int` arithmetic. -/
theorem evictLoop_suffix (newSize : Int) (now : Nat → Time) :
    ∀ (fuel t : Nat) (c : LruCache),
      (∀ el, el ∈ c.theList → ∃ e, el.Value = .entry e) →
      (c.theList.map Element.id).Nodup →
      wrapInt c.currentSize = c.currentSize →
      ∀ c1 t1, evictLoop newSize now fuel t c = .fits c1 t1 →
        ∃ evicted, c.theList = c1.theList ++ evicted ∧
          c1.currentSize = wrapInt (c.currentSize - sizeSum evicted) ∧
          c1.nextElem = c.nextElem ∧ c1.maxSize = c.maxSize ∧
          wrapInt (c1.currentSize + newSize) ≤ c.maxSize ∧
          (∀ kept2 evicted2, c.theList = kept2 ++ evicted2 →
            evicted2.length < evicted.length →
            wrapInt (c.currentSize - sizeSum evicted2 + newSize) > c.maxSize) := by
  intro fuel
  induction fuel with
  | zero => intro t c _ _ _ c1 t1 h; simp [evictLoop] at h
  | succ n ih =>
    intro t c hent hnd hrange c1 t1 h
    simp only [evictLoop] at h
    by_cases hgt : wrapInt (c.currentSize + newSize) > c.maxSize
    · simp only [hgt, if_true] at h
      cases hb : Back c.theList with
      | none => simp [hb, remove_nil] at h
      | some el =>
        obtain ⟨e, hv⟩ := hent el (Back_mem hb)
        obtain ⟨init, hinit⟩ := List.getLast?_eq_some_iff.1 hb
        simp only [hb, remove_entry c hv] at h
        have hlist : (removed c el e (now t)).theList = init := by
          rw [removed_theList, hinit]
          exact listRemove_concat (hinit ▸ hnd)
        have hent1 : ∀ x, x ∈ (removed c el e (now t)).theList → ∃ e1, x.Value = .entry e1 := by
          intro x hx
          rw [hlist] at hx
          exact hent x (by rw [hinit]; exact List.mem_append_left _ hx)
        have hnd1 : ((removed c el e (now t)).theList.map Element.id).Nodup := by
          rw [hlist]
          rw [hinit, List.map_append] at hnd
          exact (List.nodup_append.1 hnd).1
        obtain ⟨ev, h1, h2, h3, h4, h5, h6⟩ := ih (t + 1) _ hent1 hnd1
          (wrapInt_wrapInt _) c1 t1 h
        have hes : entrySize el = e.size := by simp [entrySize, hv]
        refine ⟨ev ++ [el], ?_, ?_, h3, h4, h5, ?_⟩
        · rw [hinit, ← List.append_assoc, ← h1, hlist]
        · rw [h2, removed_currentSize, sizeSum_append, sizeSum_singleton, hes,
            wrapInt_sub_left]
          congr 1
          ring
        · intro kept2 evicted2 hsplit hlen
          rcases List.eq_nil_or_concat evicted2 with hnil | ⟨ev2, x, hx⟩
          · rw [hnil]
            simp only [sizeSum, List.map_nil, List.sum_nil, sub_zero]
            exact hgt
          · rw [List.concat_eq_append] at hx
            subst hx
            rw [hinit, ← List.append_assoc] at hsplit
            obtain ⟨hk, hl⟩ := List.append_inj' hsplit rfl
            simp only [List.cons.injEq, and_true] at hl
            subst hl
            have hlen2 : ev2.length < ev.length := by
              simp only [List.length_append, List.length_singleton] at hlen
              omega
            have := h6 kept2 ev2 (by rw [hlist, hk]) hlen2
            rw [removed_currentSize] at this
            rw [sizeSum_append, sizeSum_singleton, hes]
            have hm : (removed c el e (now t)).maxSize = c.maxSize := rfl
            rw [hm] at this
            have heq : wrapInt (c.currentSize - (sizeSum ev2 + e.size) + newSize)
                = wrapInt (wrapInt (c.currentSize - e.size) - sizeSum ev2 + newSize) := by
              unfold wrapInt
              omega
            rw [heq]
            exact this
    · simp only [hgt, if_false, EvictResult.fits.injEq] at h
      obtain ⟨h1, _⟩ := h
      subst h1
      refine ⟨[], by simp, by simp [sizeSum, hrange], rfl, rfl, not_lt.1 hgt, ?_⟩
      intro _ _ _ hlen
      simp at hlen

theorem PutOrdered_removed {c : LruCache} (h : PutOrdered c) (el : Element) (e : cacheEntry)
    (t : Time) : PutOrdered (removed c el e t) := by
  refine ⟨fun x hx => h.1 x (mem_listRemove.1 hx).1, ?_⟩
  show ((listRemove c.theList el).map Element.id).Pairwise _
  exact List.Pairwise.sublist ((List.filter_sublist c.theList).map Element.id) h.2

theorem PutOrdered_pushed {c : LruCache} (hc : Inv c) (h : PutOrdered c) (key : String)
    (e : cacheEntry) : PutOrdered (pushed c key e) := by
  refine ⟨?_, ?_⟩
  · intro x hx
    rcases List.mem_cons.1 hx with heq | hrest
    · exact ⟨e, by rw [heq]⟩
    · exact h.1 x hrest
  · show ((_ :: c.theList).map Element.id).Pairwise _
    rw [List.map_cons, List.pairwise_cons]
    refine ⟨?_, h.2⟩
    intro i hi
    obtain ⟨x, hx, hid⟩ := List.mem_map.1 hi
    rw [← hid]
    exact hc.fresh x hx

/-- After `Put` calls only, the list holds entries only, most recent first. -/
theorem run_puts_ordered : ∀ (ops : List Op) (c c1 : LruCache),
    (∀ op ∈ ops, op.isPut = true) → Inv c → PutOrdered c → run c ops = some c1 →
    Inv c1 ∧ PutOrdered c1 := by
  intro ops
  induction ops with
  | nil =>
    intro c c1 _ hc hq h
    simp only [run, Option.some.injEq] at h
    rw [← h]; exact ⟨hc, hq⟩
  | cons op ops ih =>
    intro c c1 hops hc hq h
    simp only [run] at h
    cases hs : step c op with
    | none => simp [hs] at h
    | some c2 =>
      simp only [hs] at h
      have h2 : Inv c2 ∧ PutOrdered c2 := by
        cases op with
        | put key item now =>
          exact Put_preserves PutOrdered key item
            (fun s el e t _ hq1 _ _ => PutOrdered_removed hq1 el e t)
            (fun s t hi hq1 _ _ => PutOrdered_pushed hi hq1 key _) hc hq hs
        | get key now =>
          have := hops (.get key now) (List.mem_cons_self _ _)
          simp [Op.isPut] at this
        | stats now =>
          have := hops (.stats now) (List.mem_cons_self _ _)
          simp [Op.isPut] at this
      exact ih c2 c1 (fun o ho => hops o (List.mem_cons_of_mem _ ho)) h2.1 h2.2 h

theorem PutOrdered_New (maxSize : Int) (maxAge : Duration) (now : Time) :
    PutOrdered (New maxSize maxAge now) := by
  refine ⟨?_, ?_⟩ <;> simp [Cache.New]

theorem replaceStep_ordered {c c0 : LruCache} {key : String} {now : Nat → Time} {t : Nat}
    (hc : Inv c) (hq : PutOrdered c) (h : replaceStep c key now = some (c0, t)) :
    PutOrdered c0 ∧ c0.theMap.length ≤ c.theMap.length := by
  rcases replaceStep_spec hc key now with ⟨_, hr1⟩ | ⟨el, e, _, _, _, _, hr1⟩
  · rw [hr1] at h
    simp only [Option.some.injEq, Prod.mk.injEq] at h
    rw [← h.1]; exact ⟨hq, Nat.le_refl _⟩
  · rw [hr1] at h
    simp only [Option.some.injEq, Prod.mk.injEq] at h
    rw [← h.1]
    refine ⟨PutOrdered_removed hq el e _, ?_⟩
    show (mapDelete c.theMap e.key).length ≤ c.theMap.length
    exact List.length_filter_le _ _

/-- In a consistent state whose list holds entries only, the list has as many
elements as the index has keys. -/
theorem length_theList_eq {c : LruCache} (hc : Inv c) (hq : PutOrdered c) :
    c.theList.length = c.theMap.length := by
  have hperm : (c.theMap.map Prod.snd).Perm c.theList := by
    rw [List.perm_ext_iff_of_nodup]
    · intro x
      constructor
      · intro hx
        obtain ⟨p, hp, hpx⟩ := List.mem_map.1 hx
        obtain ⟨k, el⟩ := p
        simp only at hpx
        subst hpx
        exact (hc.mapSound k el hp).1
      · intro hx
        obtain ⟨e, hv⟩ := hq.1 x hx
        exact List.mem_map.2 ⟨(e.key, x), hc.listSound x e hx hv, rfl⟩
    · rw [List.nodup_map_iff_inj_on (List.Nodup.of_map Prod.fst hc.keysNodup)]
      intro p hp q hq2 hpq
      obtain ⟨k1, e1⟩ := p
      obtain ⟨k2, e2⟩ := q
      simp only at hpq
      subst hpq
      obtain ⟨_, ea, hva, hka⟩ := hc.mapSound k1 e1 hp
      obtain ⟨_, eb, hvb, hkb⟩ := hc.mapSound k2 e1 hq2
      rw [hva] at hvb
      injection hvb with hvb
      rw [← hka, ← hkb, hvb]
    · exact List.Nodup.of_map Element.id hc.idsNodup
  rw [← hperm.length_eq, List.length_map]

/-- Claim C16, counterexample.  The cache is built with the largest `int` as
its maximum and holds one entry, with `currentSize` 9223372036854775020.  A
`Put` of a 1000 byte item under `"b"` has size 1153, and `currentSize` plus
that size exceeds the maximum; the shortest run whose removal brings the sum
within the maximum is the entry of `"a"`.  The sum the loop computes wraps
around to a negative number, so `Put` evicts nothing: both keys are indexed
afterwards and `currentSize` is -9223372036854775443. -/
theorem eviction_skipped_on_wrap :
    (∀ op ∈ evictionWrapDemoOps, op.isPut = true) ∧
    run (New 9223372036854775807 0 0) evictionWrapDemoOps
      = some (stateAfter (New 9223372036854775807 0 0) evictionWrapDemoOps) ∧
    (stateAfter (New 9223372036854775807 0 0) evictionWrapDemoOps).maxSize
      = 9223372036854775807 ∧
    (stateAfter (New 9223372036854775807 0 0) evictionWrapDemoOps).currentSize
      = 9223372036854775020 ∧
    (newCacheEntry "b" ⟨2, 1000⟩ 2).size = 1153 ∧
    ¬ ((stateAfter (New 9223372036854775807 0 0) evictionWrapDemoOps).currentSize
        + (newCacheEntry "b" ⟨2, 1000⟩ 2).size
      ≤ (stateAfter (New 9223372036854775807 0 0) evictionWrapDemoOps).maxSize) ∧
    (60 : Int) + (newCacheEntry "b" ⟨2, 1000⟩ 2).size
      ≤ (stateAfter (New 9223372036854775807 0 0) evictionWrapDemoOps).maxSize ∧
    Put (stateAfter (New 9223372036854775807 0 0) evictionWrapDemoOps) "b" ⟨2, 1000⟩ (clockAt 2)
      = .ret (stateAfter (New 9223372036854775807 0 0)
          (evictionWrapDemoOps ++ [.put "b" ⟨2, 1000⟩ (clockAt 2)])) none ∧
    (stateAfter (New 9223372036854775807 0 0)
      (evictionWrapDemoOps ++ [.put "b" ⟨2, 1000⟩ (clockAt 2)])).theMap.map Prod.fst
      = ["b", "a"] ∧
    (stateAfter (New 9223372036854775807 0 0)
      (evictionWrapDemoOps ++ [.put "b" ⟨2, 1000⟩ (clockAt 2)])).theList.length = 2 ∧
    (stateAfter (New 9223372036854775807 0 0)
      (evictionWrapDemoOps ++ [.put "b" ⟨2, 1000⟩ (clockAt 2)])).currentSize
      = -9223372036854775443 :=
  ⟨by simp [evictionWrapDemoOps, Op.isPut], rfl, rfl, rfl, rfl, by decide, by decide, rfl, rfl,
    rfl, rfl⟩

/-- Claim C16 (capacity eviction is oldest-first and minimal), amended.  In a
state reached from `New` by `Put` calls only, the list holds entries only and
is ordered by the `Put` that allocated each element, most recent at the front.
A successful `Put key item` first removes the entry stored under `key`, if any,
and then evicts a run `evicted` at the back of the remaining list
`kept ++ evicted`: the shortest run after whose removal the total plus the new
size, as the code computes that sum in 64-bit `int` arithmetic, is within the
maximum (none when the entry already fits in that arithmetic).  The elements
in `kept` are still linked and indexed afterwards, the evicted ones are not
indexed, the new entry is at the front with the largest identity, and the
number of evictions is at most the number of entries. -/
theorem eviction_oldest_first (maxSize : Int) (maxAge : Duration) (t0 : Time) (ops : List Op)
    (c c1 : LruCache) (key : String) (item : CacheItem) (now : Nat → Time)
    (hops : ∀ op ∈ ops, op.isPut = true)
    (hrun : run (New maxSize maxAge t0) ops = some c)
    (hput : Put c key item now = .ret c1 none) :
    PutOrdered c ∧ PutOrdered c1 ∧
    ∃ c0 t kept evicted,
      replaceStep c key now = some (c0, t) ∧
      c0.theList = kept ++ evicted ∧
      c1.theList = ⟨c0.nextElem, .entry (newCacheEntry key item (now t))⟩ :: kept ∧
      c1.currentSize
        = wrapInt (c0.currentSize - sizeSum evicted
            + wrapInt (152 + len key + item.ByteSize)) ∧
      wrapInt (c0.currentSize - sizeSum evicted + wrapInt (152 + len key + item.ByteSize))
        ≤ c.maxSize ∧
      (∀ kept2 evicted2, c0.theList = kept2 ++ evicted2 →
        evicted2.length < evicted.length →
        wrapInt (c0.currentSize - sizeSum evicted2 + wrapInt (152 + len key + item.ByteSize))
          > c.maxSize) ∧
      (wrapInt (c0.currentSize + wrapInt (152 + len key + item.ByteSize)) ≤ c.maxSize →
        evicted = []) ∧
      (∀ el, el ∈ kept → ∃ e, el.Value = .entry e ∧ mapGet c1.theMap e.key = some el) ∧
      (∀ el, el ∈ evicted → ∃ e, el.Value = .entry e ∧ mapGet c1.theMap e.key = none) ∧
      entryOf c1 key = some (newCacheEntry key item (now t)) ∧
      (∀ el, el ∈ kept → el.id < c0.nextElem) ∧
      evicted.length ≤ c.theMap.length := by
  obtain ⟨hi, hq⟩ := run_puts_ordered ops _ c hops (Inv_New maxSize maxAge t0)
    (PutOrdered_New maxSize maxAge t0) hrun
  obtain ⟨hi1, hq1⟩ := Put_preserves PutOrdered key item
    (fun s el e t _ hq1 _ _ => PutOrdered_removed hq1 el e t)
    (fun s t hi hq1 _ _ => PutOrdered_pushed hi hq1 key _) hi hq
    (show (Put c key item now).state = some c1 by rw [hput]; rfl)
  refine ⟨hq, hq1, ?_⟩
  obtain ⟨c0, t, hr, hcase⟩ := Put_ret_spec hput
  obtain ⟨hi0, habs0⟩ := replaceStep_inv hi hr
  obtain ⟨hq0, hlen0⟩ := replaceStep_ordered hi hq hr
  have hmax0 : c0.maxSize = c.maxSize := replaceStep_maxSize hi hr
  rcases hcase with ⟨c2, t2, he, hc1, _⟩ | ⟨_, herr⟩
  · have hrange : wrapInt c0.currentSize = c0.currentSize := by
      rw [hi0.sizeEq, wrapInt_wrapInt]
    obtain ⟨evicted, hsplit, hcur, hnext, hmax2, hfit, hmin⟩ :=
      evictLoop_suffix _ now _ _ c0 hq0.1 hi0.idsNodup hrange c2 t2 he
    rw [newCacheEntry_size] at hfit hmin
    rw [hcur, wrapInt_add_left] at hfit
    have hloop := evictLoop_rule (fun s => Inv s ∧ mapGet s.theMap key = none)
      (newCacheEntry key item (now t)).size now
      (fun s el e t1 hs hb hv =>
        ⟨Inv_removed hs.1 (Back_mem hb) hv t1, mapGet_mapDelete_of_none hs.2 _⟩)
      (c0.theList.length + 1) (t + 1) c0 ⟨hi0, habs0⟩
    obtain ⟨⟨hi2, habs2⟩, _⟩ := hloop.1 c2 t2 he
    have hlist1 : c1.theList
        = ⟨c0.nextElem, .entry (newCacheEntry key item (now t))⟩ :: c2.theList := by
      rw [hc1, ← hnext]; rfl
    have hnd0 : (c0.theList).Nodup := List.Nodup.of_map Element.id hi0.idsNodup
    refine ⟨c0, t, c2.theList, evicted, hr, hsplit, hlist1, ?_, ?_, ?_, ?_, ?_, ?_, ?_, ?_, ?_⟩
    · rw [hc1, pushed_currentSize, hcur, newCacheEntry_size, wrapInt_add_left]
    · rw [← hmax0]; exact hfit
    · intro kept2 evicted2 h1 h2
      rw [← hmax0]; exact hmin kept2 evicted2 h1 h2
    · intro hfits
      cases hev : evicted with
      | nil => rfl
      | cons x rest =>
        have := hmin c0.theList [] (by simp) (by rw [hev]; simp)
        simp only [sizeSum, List.map_nil, List.sum_nil, sub_zero] at this
        rw [← hmax0] at hfits
        exact absurd hfits (not_le.2 this)
    · intro el hel
      have hel1 : el ∈ c1.theList := by rw [hlist1]; exact List.mem_cons_of_mem _ hel
      obtain ⟨e, hv⟩ := hq1.1 el hel1
      exact ⟨e, hv, mapGet_of_mem hi1.keysNodup (hi1.listSound el e hel1 hv)⟩
    · intro el hel
      have hel0 : el ∈ c0.theList := by rw [hsplit]; exact List.mem_append_right _ hel
      obtain ⟨e, hv⟩ := hq0.1 el hel0
      refine ⟨e, hv, ?_⟩
      have hmem0 : (e.key, el) ∈ c0.theMap := hi0.listSound el e hel0 hv
      have hne : e.key ≠ key := by
        intro hk
        rw [hk] at hmem0
        exact mapGet_none habs0 el hmem0
      have hmap1 : mapGet c1.theMap e.key = mapGet c2.theMap e.key := by
        rw [hc1]
        exact mapGet_mapSet_ne _ _ hne
      rw [hmap1]
      cases hg : mapGet c2.theMap e.key with
      | none => rfl
      | some x =>
        exfalso
        obtain ⟨hx2, e2, hv2, hk2⟩ := hi2.mapSound e.key x (mapGet_mem hg)
        have hx0 : x ∈ c0.theList := by rw [hsplit]; exact List.mem_append_left _ hx2
        have hxm : (e.key, x) ∈ c0.theMap := hk2 ▸ hi0.listSound x e2 hx0 hv2
        have h1 := mapGet_of_mem hi0.keysNodup hxm
        rw [mapGet_of_mem hi0.keysNodup hmem0] at h1
        injection h1 with h1
        subst h1
        rw [hsplit] at hnd0
        exact (List.nodup_append.1 hnd0).2.2 hx2 hel
    · rw [hc1]; exact entryOf_pushed _ _ _
    · intro el hel
      exact hi0.fresh el (by rw [hsplit]; exact List.mem_append_left _ hel)
    · have h1 : evicted.length ≤ c0.theList.length := by
        rw [hsplit, List.length_append]; omega
      rw [length_theList_eq hi0 hq0] at h1
      omega
  · simp at herr

/-- Claim C16, instance: with "a", "b", "c" stored in that order, storing "d"
evicts exactly the oldest entry "a". -/
theorem eviction_oldest_first_witness :
    (∀ op ∈ evictionDemoOps, op.isPut = true) ∧
    run (New 0 0 0) evictionDemoOps = some (stateAfter (New 0 0 0) evictionDemoOps) ∧
    (∃ c1, Put (stateAfter (New 0 0 0) evictionDemoOps) "d" ⟨4, 300000⟩ (clockAt 4)
        = .ret c1 none ∧
      c1.theMap.map Prod.fst = ["d", "c", "b"] ∧ PutOrdered c1) :=
  have hops : ∀ op ∈ evictionDemoOps, op.isPut = true := by
    simp [evictionDemoOps, Op.isPut]
  ⟨hops, rfl, _, rfl, rfl,
    (eviction_oldest_first 0 0 0 evictionDemoOps (stateAfter (New 0 0 0) evictionDemoOps) _
      "d" ⟨4, 300000⟩ (clockAt 4) hops rfl rfl).2.1⟩

/-- Every removal the eviction loop logs deletes one key of the index. -/
theorem evictLoop_count (newSize : Int) (now : Nat → Time) :
    ∀ (fuel t : Nat) (c : LruCache), Inv c →
      (∀ c1 t1, evictLoop newSize now fuel t c = .fits c1 t1 →
        c1.theMap.length + (evictLog newSize now fuel t c).length = c.theMap.length) ∧
      (∀ c1, evictLoop newSize now fuel t c = .full c1 →
        c1.theMap.length + (evictLog newSize now fuel t c).length = c.theMap.length) ∧
      (∀ c1, evictLoop newSize now fuel t c = .panic c1 →
        c1.theMap.length + (evictLog newSize now fuel t c).length = c.theMap.length) := by
  intro fuel
  induction fuel with
  | zero => intro t c _; simp [evictLoop]
  | succ n ih =>
    intro t c hc
    simp only [evictLoop, evictLog]
    by_cases hgt : wrapInt (c.currentSize + newSize) > c.maxSize
    · simp only [hgt, if_true]
      cases hb : Back c.theList with
      | none =>
        simp only [remove_nil]
        refine ⟨fun c1 t1 h => by simp at h, fun c1 h => ?_, fun c1 h => by simp at h⟩
        simp only [EvictResult.full.injEq] at h
        subst h
        rfl
      | some el =>
        cases hv : el.Value with
        | elemPtr i =>
          simp only [remove_ptr c hv, hv]
          refine ⟨fun c1 t1 h => by simp at h, fun c1 h => by simp at h, fun c1 h => ?_⟩
          simp only [EvictResult.panic.injEq] at h
          subst h
          rfl
        | entry e =>
          simp only [remove_entry c hv, hv, List.length_cons]
          have hmem : (e.key, el) ∈ c.theMap := hc.listSound el e (Back_mem hb) hv
          have hlen : (removed c el e (now t)).theMap.length + 1 = c.theMap.length :=
            length_mapDelete hc.keysNodup hmem
          obtain ⟨h1, h2, h3⟩ := ih (t + 1) (removed c el e (now t))
            (Inv_removed hc (Back_mem hb) hv (now t))
          refine ⟨fun c1 t1 h => ?_, fun c1 h => ?_, fun c1 h => ?_⟩
          · have := h1 c1 t1 h; omega
          · have := h2 c1 h; omega
          · have := h3 c1 h; omega
    · simp only [hgt, if_false]
      refine ⟨fun c1 t1 h => ?_, fun c1 h => by simp at h, fun c1 h => by simp at h⟩
      simp only [EvictResult.fits.injEq] at h
      rw [← h.1]
      rfl

theorem putLog_eq {c : LruCache} (hc : Inv c) (key : String) (item : CacheItem)
    (now : Nat → Time) {c0 : LruCache} {t : Nat} (hr : replaceStep c key now = some (c0, t)) :
    c0.theMap.length + (putLog c key item now).length
      = c.theMap.length +
        (evictLog (newCacheEntry key item (now t)).size now (c0.theList.length + 1) (t + 1)
          c0).length := by
  rcases replaceStep_spec hc key now with ⟨hg, hr1⟩ | ⟨el, e, hg, hv, hk, _, hr1⟩
  · rw [hr1] at hr
    simp only [Option.some.injEq, Prod.mk.injEq] at hr
    obtain ⟨h1, h2⟩ := hr
    subst h1; subst h2
    simp only [putLog, hg]
  · rw [hr1] at hr
    simp only [Option.some.injEq, Prod.mk.injEq] at hr
    obtain ⟨h1, h2⟩ := hr
    subst h1; subst h2
    have hlen : (removed c el e (now 0)).theMap.length + 1 = c.theMap.length := by
      show (mapDelete c.theMap e.key).length + 1 = _
      rw [hk]; exact length_mapDelete hc.keysNodup (mapGet_mem hg)
    simp only [putLog, hg, hv, List.length_cons, show (1 + 1 : Nat) = 2 from rfl]
    omega

/-- The removals `putLog` lists are the keys a `Put` deletes from the index: the
number of keys afterwards plus the number of logged removals is the number of
keys before, plus one when the new entry is stored. -/
theorem Put_removal_count {c : LruCache} (hc : Inv c) (key : String) (item : CacheItem)
    (now : Nat → Time) :
    (∀ c1, Put c key item now = .ret c1 none →
      c1.theMap.length + (putLog c key item now).length = c.theMap.length + 1) ∧
    (∀ c1 err, Put c key item now = .ret c1 (some err) →
      c1.theMap.length + (putLog c key item now).length = c.theMap.length) := by
  constructor
  · intro c1 hput
    obtain ⟨c0, t, hr, hcase⟩ := Put_ret_spec hput
    obtain ⟨hi0, habs0⟩ := replaceStep_inv hc hr
    have hlog := putLog_eq hc key item now hr
    rcases hcase with ⟨c2, t2, he, hc1, _⟩ | ⟨_, herr⟩
    · have hcount := (evictLoop_count _ now _ _ c0 hi0).1 c2 t2 he
      have hloop := evictLoop_rule (fun s => mapGet s.theMap key = none)
        (newCacheEntry key item (now t)).size now
        (fun s el e t1 hs _ _ => mapGet_mapDelete_of_none hs _)
        (c0.theList.length + 1) (t + 1) c0 habs0
      have habs2 : mapGet c2.theMap key = none := (hloop.1 c2 t2 he).1
      have hlen1 : c1.theMap.length = c2.theMap.length + 1 := by
        rw [hc1]
        show (mapSet c2.theMap key _).length = _
        simp only [mapSet, mapDelete_of_mapGet_none habs2, List.length_cons]
      omega
    · simp at herr
  · intro c1 err hput
    obtain ⟨c0, t, hr, hcase⟩ := Put_ret_spec hput
    obtain ⟨hi0, _⟩ := replaceStep_inv hc hr
    have hlog := putLog_eq hc key item now hr
    rcases hcase with ⟨c2, t2, _, _, herr⟩ | ⟨he, _⟩
    · simp at herr
    · have hcount := (evictLoop_count _ now _ _ c0 hi0).2.1 c1 he
      omega

/-- The removal `getLog` lists is the key a `Get` deletes from the index. -/
theorem Get_removal_count {c c1 : LruCache} (hc : Inv c) {key : String} {now : Nat → Time}
    {r : Option CacheItem} (h : Get c key now = .ret c1 r) :
    c1.theMap.length + (getLog c key now).length = c.theMap.length := by
  rcases Get_ret_spec hc h with
    ⟨hg, h1, _⟩ | ⟨el, e, hg, hv, hk, _, ⟨hx, h1, _⟩ | ⟨hx, h1, _⟩⟩
  · simp [getLog, entryOf, hg, h1]
  · have hlen : (removed c el e (now 1)).theMap.length + 1 = c.theMap.length := by
      show (mapDelete c.theMap e.key).length + 1 = _
      rw [hk]; exact length_mapDelete hc.keysNodup (mapGet_mem hg)
    simp only [getLog, entryOf, hg, hv, hx, if_true, h1, List.length_singleton]
    exact hlen
  · simp only [getLog, entryOf, hg, hv, hx, h1]
    rfl

end Cache

namespace Query

theorem data_dash_append (rest : String) : ("-" ++ rest).data = '-' :: rest.data := by
  rw [String.data_append]; rfl

theorem HasPrefix_dash_append (rest : String) : HasPrefix ("-" ++ rest) "-" = true := by
  unfold HasPrefix
  rw [data_dash_append]
  simp [List.isPrefixOf]

theorem sliceFrom_dash_append (rest : String) : sliceFrom ("-" ++ rest) 1 = rest := by
  unfold sliceFrom
  rw [data_dash_append]
  rfl

theorem HasPrefix_dash_elim {s : String} (h : HasPrefix s "-" = true) :
    s = "-" ++ sliceFrom s 1 := by
  unfold HasPrefix at h
  have hd : ("-" : String).data = ['-'] := rfl
  rw [hd] at h
  apply String.ext
  rw [data_dash_append]
  cases hs : s.data with
  | nil => rw [hs] at h; simp [List.isPrefixOf] at h
  | cons ch tl =>
    rw [hs] at h
    simp [List.isPrefixOf] at h
    simp [sliceFrom, hs, h.symm]

/-- Claim C19 (order-by parsing).  `unMarshalOrderByClause` returns a list of
the same length in the same order: for a string that starts with "-" the
result at the same position has `Reverse = true` and `Column` the string
without that first character, for any other string it has `Reverse = false` and
`Column` the string itself.  Only one leading "-" is stripped, and "-" alone
gives the empty column name with `Reverse = true`. -/
theorem order_by_parsing (input : List String) :
    (unMarshalOrderByClause input).length = input.length ∧
    (∀ (i : Nat) (s : String), input[i]? = some s →
      (∀ rest, s = "-" ++ rest →
        (unMarshalOrderByClause input)[i]? = some (Order.mk rest true)) ∧
      ((∀ rest, s ≠ "-" ++ rest) →
        (unMarshalOrderByClause input)[i]? = some (Order.mk s false))) ∧
    unMarshalOrderByClause ["--a", "-", "b", ""]
      = [⟨"-a", true⟩, ⟨"", true⟩, ⟨"b", false⟩, ⟨"", false⟩] := by
  refine ⟨by simp [unMarshalOrderByClause], ?_, by decide⟩
  intro i s hs
  have hget : (unMarshalOrderByClause input)[i]?
      = some (if HasPrefix s "-" then Order.mk (sliceFrom s 1) true
              else Order.mk s false) := by
    simp [unMarshalOrderByClause, List.getElem?_map, hs]
  constructor
  · intro rest hrest
    rw [hget, hrest, HasPrefix_dash_append, sliceFrom_dash_append]
    rfl
  · intro hno
    have : HasPrefix s "-" = false := by
      cases h : HasPrefix s "-" with
      | false => rfl
      | true => exact absurd (HasPrefix_dash_elim h) (hno _)
    rw [hget, this]
    rfl

/-- Claim C19, instance: the order-by list of a query sorted by descending
price and ascending name. -/
theorem order_by_parsing_witness :
    unMarshalOrderByClause ["-price", "name"] = [⟨"price", true⟩, ⟨"name", false⟩] ∧
    (unMarshalOrderByClause ["-price", "name"])[0]? = some (Order.mk "price" true) :=
  ⟨by decide, ((order_by_parsing ["-price", "name"]).2.1 0 "-price" rfl).1 "price" rfl⟩

theorem unMarshalFilterClauses_error {Clause : Type} (lib : ClauseLib Clause) :
    ∀ (l : List Json) (sub : Json), sub ∈ l →
      (∃ e, (unMarshalFilterClause lib sub).2 = some e) →
      ∃ e, unMarshalFilterClauses lib l = .error e := by
  intro l
  induction l with
  | nil => intro sub h; simp at h
  | cons x rest ih =>
    intro sub hmem herr
    rw [unMarshalFilterClauses]
    cases hx : unMarshalFilterClause lib x with
    | mk c err =>
      cases err with
      | some e => exact ⟨e, rfl⟩
      | none =>
        have hsub : sub ∈ rest := by
          rcases List.mem_cons.1 hmem with heq | hrest
          · subst heq
            obtain ⟨e, he⟩ := herr
            rw [hx] at he
            simp at he
          · exact hrest
        obtain ⟨e, he⟩ := ih sub hsub herr
        exact ⟨e, by simp only [he]⟩

theorem not_isLogical {op : String} (h : ¬ isLogical op) :
    ¬ (op = "and" ∨ op = "AND") ∧ ¬ (op = "or" ∨ op = "OR") ∧ ¬ (op = "not" ∨ op = "NOT") := by
  unfold isLogical at h
  tauto

/-- Claim C20 (filter-clause validation).  `unMarshalFilterClause` is total, and
for every decoded value rejected by the validation rules (not nil and not a
list; a list of fewer than 2 elements; a first element that is not a string;
operator not/NOT with a length other than 2; another non-logical operator with
a length other than 3 or with a second element that is not a string; an
and/or/not clause with a rejected sub-clause) it returns the null clause and an
error.  A nil input is not rejected by these rules and yields the null clause
together with whatever error that clause reports. -/
theorem filter_clause_validation {Clause : Type} (lib : ClauseLib Clause) (j : Json)
    (h : Rejected j) :
    (∃ e, unMarshalFilterClause lib j = (lib.Null, some e)) ∧
    ¬ Rejected .null ∧
    unMarshalFilterClause lib .null = (lib.Null, clauseErr lib lib.Null) := by
  refine ⟨?_, ?_, by rw [unMarshalFilterClause]⟩
  · induction h with
    | notAList j hnull harr =>
      cases j with
      | null => exact absurd rfl hnull
      | arr l => exact absurd rfl (harr l)
      | bool b => exact ⟨.notAList, rfl⟩
      | number n => exact ⟨.notAList, rfl⟩
      | str s => exact ⟨.notAList, rfl⟩
      | obj f => exact ⟨.notAList, rfl⟩
    | tooShort l hlen =>
      match l, hlen with
      | [], _ => exact ⟨.tooShort, rfl⟩
      | [_], _ => exact ⟨.tooShort, by simp only [unMarshalFilterClause]⟩
      | _ :: _ :: _, hlen => exact absurd hlen (by simp)
    | operatorNotString x rest hx =>
      cases rest with
      | nil => exact ⟨.tooShort, by simp only [unMarshalFilterClause]⟩
      | cons y r =>
        cases x with
        | str s => exact absurd rfl (hx s)
        | null => exact ⟨.operatorNotString, rfl⟩
        | arr l => exact ⟨.operatorNotString, rfl⟩
        | bool b => exact ⟨.operatorNotString, rfl⟩
        | number n => exact ⟨.operatorNotString, rfl⟩
        | obj f => exact ⟨.operatorNotString, rfl⟩
    | notLength op rest hop hlen =>
      cases rest with
      | nil => exact ⟨.tooShort, by simp only [unMarshalFilterClause]⟩
      | cons x r =>
        have h1 : ¬ (op = "and" ∨ op = "AND") := by
          rcases hop with h | h <;> subst h <;> decide
        have h2 : ¬ (op = "or" ∨ op = "OR") := by
          rcases hop with h | h <;> subst h <;> decide
        refine ⟨.notLength, ?_⟩
        simp only [unMarshalFilterClause, h1, h2, hop, if_true, if_false]
        rw [if_pos hlen]
    | clauseLength op rest hop hlen =>
      cases rest with
      | nil => exact ⟨.tooShort, by simp only [unMarshalFilterClause]⟩
      | cons x r =>
        obtain ⟨h1, h2, h3⟩ := not_isLogical hop
        refine ⟨.clauseLength, ?_⟩
        simp only [unMarshalFilterClause, h1, h2, h3, if_false]
        rw [if_pos hlen]
    | columnNotString op x rest hop hx =>
      obtain ⟨h1, h2, h3⟩ := not_isLogical hop
      simp only [unMarshalFilterClause, h1, h2, h3, if_false]
      by_cases hlen : (Json.str op :: x :: rest).length ≠ 3
      · rw [if_pos hlen]
        exact ⟨_, rfl⟩
      · rw [if_neg hlen]
        cases x with
        | str s => exact absurd rfl (hx s)
        | null => exact ⟨_, rfl⟩
        | arr l => exact ⟨_, rfl⟩
        | bool b => exact ⟨_, rfl⟩
        | number n => exact ⟨_, rfl⟩
        | obj f => exact ⟨_, rfl⟩
    | subClause op rest sub hop hmem _ ih =>
      obtain ⟨e, he⟩ := ih
      have herr : ∃ e, (unMarshalFilterClause lib sub).2 = some e := ⟨e, by rw [he]⟩
      cases rest with
      | nil => simp at hmem
      | cons x r =>
        obtain ⟨e1, he1⟩ := unMarshalFilterClauses_error lib (x :: r) sub hmem herr
        by_cases h1 : op = "and" ∨ op = "AND"
        · refine ⟨e1, ?_⟩
          simp only [unMarshalFilterClause, h1, if_true, he1]
        · by_cases h2 : op = "or" ∨ op = "OR"
          · refine ⟨e1, ?_⟩
            simp only [unMarshalFilterClause, h1, h2, if_true, if_false, he1]
          · have h3 : op = "not" ∨ op = "NOT" := by
              unfold isLogical at hop
              tauto
            by_cases hlen : (Json.str op :: x :: r).length ≠ 2
            · refine ⟨.notLength, ?_⟩
              simp only [unMarshalFilterClause, h1, h2, h3, if_true, if_false]
              rw [if_pos hlen]
            · have hr : r = [] := by
                simp only [List.length_cons, ne_eq, not_not] at hlen
                cases r with
                | nil => rfl
                | cons _ _ => simp at hlen
              subst hr
              have hsx : sub = x := by simpa using hmem
              subst hsx
              refine ⟨e, ?_⟩
              simp only [unMarshalFilterClause, h1, h2, h3, if_true, if_false]
              rw [if_neg hlen, he]
  · intro hrej
    cases hrej with
    | notAList _ hnull _ => exact hnull rfl

/-- Claim C20, instance: an `and` clause whose second sub-clause, a `not`
clause, holds a comparison with a number in place of the column name. -/
theorem filter_clause_validation_witness :
    Rejected (.arr [.str "and", .arr [.str "<", .str "a", .number 1],
      .arr [.str "not", .arr [.str ">", .number 2, .number 1]]]) ∧
    unMarshalFilterClause demoLib (.arr [.str "and", .arr [.str "<", .str "a", .number 1],
      .arr [.str "not", .arr [.str ">", .number 2, .number 1]]])
      = (demoLib.Null, some .columnNotString) ∧
    ∃ e, unMarshalFilterClause demoLib (.arr [.str "and", .arr [.str "<", .str "a", .number 1],
      .arr [.str "not", .arr [.str ">", .number 2, .number 1]]]) = (demoLib.Null, some e) :=
  have hinner : Rejected (.arr [.str ">", .number 2, .number 1]) :=
    .columnNotString ">" (.number 2) [.number 1] (by unfold isLogical; decide)
      (fun s hs => Json.noConfusion hs)
  have hnot : Rejected (.arr [.str "not", .arr [.str ">", .number 2, .number 1]]) :=
    .subClause "not" _ _ (by unfold isLogical; decide) (List.mem_cons_self _ _) hinner
  have hand : Rejected (.arr [.str "and", .arr [.str "<", .str "a", .number 1],
      .arr [.str "not", .arr [.str ">", .number 2, .number 1]]]) :=
    .subClause "and" _ _ (by unfold isLogical; decide)
      (List.mem_cons_of_mem _ (List.mem_cons_self _ _)) hnot
  ⟨hand, rfl, (filter_clause_validation demoLib _ hand).1⟩

end Query
